import Mathlib

/-!
# Concourse pipeline resource: `in` and `out` commands

A shallow embedding of `in/in_command.go` (`InCommand.Run`) and
`out/out_command.go` (`OutCommand.Run`).

* Go strings are Lean strings; `[]byte(s)` is the UTF-8 encoding of `s`.
* Go's `error` is `Option Err`; `none` is the nil error.
* External collaborators (API client, fly connection, file system) are
  oracles collected in a world structure.  An oracle whose answer may differ
  between two calls with the same arguments takes the identity of the call
  (goroutine index, loop index) as first argument.
* The goroutines of `InCommand.Run` share the error channel and the slot
  array.  Every goroutine writes a slot of its own, so all that one goroutine
  can observe of another is the order of the sends on the channel; each
  goroutine body is therefore executed as one step, and a schedule (a
  permutation of the goroutine indices) fixes the order in which the bodies
  complete.  Statements hold for every oracle and every schedule, hence for
  every answer a client may give and every order of completion.
-/

set_option maxRecDepth 100000

namespace Concourse

/-! ## Data model -/

/-- A non-nil Go error value, identified by its message. -/
structure Err where
  msg : String
deriving DecidableEq

/-- Modelled from the spec: the type `concourse.Version` is declared outside
the two command files; its field `PipelinesChecksum` is the content
fingerprint of the write direction. -/
structure Version where
  PipelinesChecksum : String
deriving DecidableEq

/-- Modelled from the spec: the type `concourse.Metadata` is declared outside
the two command files; both commands only ever build the empty list of it. -/
structure Metadata where
  Name : String
  Value : String
deriving DecidableEq

/-- Modelled from the spec: the type `concourse.Team`; only `Name` is read. -/
structure Team where
  Name : String
deriving DecidableEq

/-- Modelled from the spec: the type `concourse.Source`; the read direction
reads `Teams`, the write direction reads the login triple. -/
structure Source where
  Target : String
  Username : String
  Password : String
  Teams : List Team
deriving DecidableEq

/-- Modelled from the spec: the type `concourse.InRequest`. -/
structure InRequest where
  Source : Source
  Version : Version
deriving DecidableEq

/-- Modelled from the spec: the type `concourse.InResponse`.  A nil slice and
an empty slice of metadata are both the empty list. -/
structure InResponse where
  Version : Version
  Metadata : List Metadata
deriving DecidableEq

/-- Modelled from the spec: the type `api.Pipeline` (an entity reference);
only `Name` is read. -/
structure Pipeline where
  Name : String
deriving DecidableEq

/-- Modelled from the spec: the type `concourse.Pipeline`, one entry of the
manifest of the write direction. -/
structure PipelineSpec where
  Name : String
  ConfigFile : String
  VarsFiles : List String
deriving DecidableEq

/-- Modelled from the spec: the type `concourse.OutParams`. -/
structure OutParams where
  Pipelines : List PipelineSpec
  PipelinesFile : String
deriving DecidableEq

/-- Modelled from the spec: the type `concourse.OutRequest`. -/
structure OutRequest where
  Source : Source
  Params : OutParams
deriving DecidableEq

/-- Modelled from the spec: the type `concourse.OutResponse`. -/
structure OutResponse where
  Version : Version
  Metadata : List Metadata
deriving DecidableEq

/-- The struct `pipelineWithContent` of `in_command.go`. -/
structure pipelineWithContent where
  name : String
  contents : String
deriving DecidableEq

/-- The zero value `concourse.InResponse{}`. -/
def emptyInResponse : InResponse := ⟨⟨""⟩, []⟩

/-- The zero value `concourse.OutResponse{}`. -/
def emptyOutResponse : OutResponse := ⟨⟨""⟩, []⟩

/-! ## `path/filepath.Join` (Go standard library, Unix) -/

/-- Split a path at every separator `/`; empty elements are kept. -/
def splitSlash : List Char → List (List Char)
  | [] => [[]]
  | c :: cs =>
    if c = '/' then [] :: splitSlash cs
    else
      match splitSlash cs with
      | [] => [[c]]
      | x :: xs => (c :: x) :: xs

/-- One element of the lexical cleaning: `out` is the stack of elements kept so
far, last element first.  Empty elements and `.` are dropped; `..` removes the
last real element, is kept in front of a relative path and dropped at the
root. -/
def cleanElem (rooted : Bool) (out : List (List Char)) (e : List Char) : List (List Char) :=
  if e = [] ∨ e = ['.'] then out
  else if e = ['.', '.'] then
    match out with
    | [] => if rooted then [] else [e]
    | top :: rest => if top = ['.', '.'] then e :: out else rest
  else e :: out

/-- The function `filepath.Clean` on Unix paths. -/
def filepathClean (path : String) : String :=
  match path.data with
  | [] => "."
  | c :: cs =>
    let rooted : Bool := decide (c = '/')
    let elems := ((splitSlash (c :: cs)).foldl (cleanElem rooted) []).reverse
    let body : List Char := List.intercalate ['/'] elems
    if rooted then ⟨'/' :: body⟩
    else if body = [] then "." else ⟨body⟩

/-- The call `filepath.Join(dir, file)` on Unix: empty arguments are ignored,
the rest is joined with `/` and cleaned. -/
def filepathJoin (dir file : String) : String :=
  if dir ≠ "" then filepathClean (dir ++ "/" ++ file)
  else if file ≠ "" then filepathClean file
  else ""

/-! ## `crypto/md5.Sum` (Go standard library) and `fmt.Sprintf("%x", ...)` -/

namespace MD5

/-- Per-round left-rotation amounts. -/
def shifts : List Nat :=
  [7, 12, 17, 22, 7, 12, 17, 22, 7, 12, 17, 22, 7, 12, 17, 22,
   5, 9, 14, 20, 5, 9, 14, 20, 5, 9, 14, 20, 5, 9, 14, 20,
   4, 11, 16, 23, 4, 11, 16, 23, 4, 11, 16, 23, 4, 11, 16, 23,
   6, 10, 15, 21, 6, 10, 15, 21, 6, 10, 15, 21, 6, 10, 15, 21]

/-- Per-round additive constants, `floor (2^32 * |sin (i + 1)|)`. -/
def sines : List Nat :=
  [0xd76aa478, 0xe8c7b756, 0x242070db, 0xc1bdceee, 0xf57c0faf, 0x4787c62a, 0xa8304613, 0xfd469501,
   0x698098d8, 0x8b44f7af, 0xffff5bb1, 0x895cd7be, 0x6b901122, 0xfd987193, 0xa679438e, 0x49b40821,
   0xf61e2562, 0xc040b340, 0x265e5a51, 0xe9b6c7aa, 0xd62f105d, 0x02441453, 0xd8a1e681, 0xe7d3fbc8,
   0x21e1cde6, 0xc33707d6, 0xf4d50d87, 0x455a14ed, 0xa9e3e905, 0xfcefa3f8, 0x676f02d9, 0x8d2a4c8a,
   0xfffa3942, 0x8771f681, 0x6d9d6122, 0xfde5380c, 0xa4beea44, 0x4bdecfa9, 0xf6bb4b60, 0xbebfbc70,
   0x289b7ec6, 0xeaa127fa, 0xd4ef3085, 0x04881d05, 0xd9d4d039, 0xe6db99e5, 0x1fa27cf8, 0xc4ac5665,
   0xf4292244, 0x432aff97, 0xab9423a7, 0xfc93a039, 0x655b59c3, 0x8f0ccc92, 0xffeff47d, 0x85845dd1,
   0x6fa87e4f, 0xfe2ce6e0, 0xa3014314, 0x4e0811a1, 0xf7537e82, 0xbd3af235, 0x2ad7d2bb, 0xeb86d391]

/-- Rotate a 32-bit word left by `c` bits. -/
def rotl (x c : Nat) : Nat := ((x <<< c) % 4294967296) ||| (x >>> (32 - c))

/-- Bitwise complement of a 32-bit word. -/
def not32 (x : Nat) : Nat := x ^^^ 4294967295

/-- The four 32-bit words of the running digest. -/
structure Digest where
  a : Nat
  b : Nat
  c : Nat
  d : Nat
deriving DecidableEq

/-- Initial digest. -/
def init : Digest := ⟨0x67452301, 0xefcdab89, 0x98badcfe, 0x10325476⟩

/-- The round function value and the message-word index of operation `i`. -/
def mix (i : Nat) (s : Digest) : Nat × Nat :=
  if i < 16 then ((s.b &&& s.c) ||| (not32 s.b &&& s.d), i)
  else if i < 32 then ((s.d &&& s.b) ||| (not32 s.d &&& s.c), (5 * i + 1) % 16)
  else if i < 48 then (s.b ^^^ s.c ^^^ s.d, (3 * i + 5) % 16)
  else (s.c ^^^ (s.b ||| not32 s.d), (7 * i) % 16)

/-- Operation `i` of the 64 operations on one block with message words `M`. -/
def step (M : List Nat) (s : Digest) (i : Nat) : Digest :=
  let fg := mix i s
  let f := (fg.1 + s.a + sines.getD i 0 + M.getD fg.2 0) % 4294967296
  ⟨s.d, (s.b + rotl f (shifts.getD i 0)) % 4294967296, s.b, s.c⟩

/-- Little-endian 32-bit word of (up to) four bytes. -/
def leWord (bs : List Nat) : Nat :=
  bs.getD 0 0 + 256 * bs.getD 1 0 + 65536 * bs.getD 2 0 + 16777216 * bs.getD 3 0

/-- The first `n` little-endian words of a byte list. -/
def wordsOf : Nat → List Nat → List Nat
  | 0, _ => []
  | n + 1, bs => leWord (bs.take 4) :: wordsOf n (bs.drop 4)

/-- Process one 64-byte block. -/
def block (s : Digest) (chunk : List Nat) : Digest :=
  let t := (List.range 64).foldl (step (wordsOf 16 chunk)) s
  ⟨(s.a + t.a) % 4294967296, (s.b + t.b) % 4294967296,
   (s.c + t.c) % 4294967296, (s.d + t.d) % 4294967296⟩

/-- The `k` low bytes of `x`, least significant first. -/
def leBytes : Nat → Nat → List Nat
  | 0, _ => []
  | k + 1, x => x % 256 :: leBytes k (x / 256)

/-- Padding: a one bit, zeros up to 56 modulo 64, the bit length as 64-bit
little-endian integer. -/
def pad (msg : List Nat) : List Nat :=
  msg ++ 128 :: List.replicate ((119 - msg.length % 64) % 64) 0
    ++ leBytes 8 ((8 * msg.length) % 18446744073709551616)

/-- Process `n` consecutive 64-byte blocks. -/
def blocks : Nat → Digest → List Nat → Digest
  | 0, s, _ => s
  | n + 1, s, bs => blocks n (block s (bs.take 64)) (bs.drop 64)

/-- The function `md5.Sum`: the 16-byte digest of a byte sequence. -/
def sum (msg : List Nat) : List Nat :=
  let p := pad msg
  let s := blocks (p.length / 64) init p
  leBytes 4 s.a ++ leBytes 4 s.b ++ leBytes 4 s.c ++ leBytes 4 s.d

end MD5

/-- The conversion `[]byte(s)`: the bytes of the UTF-8 encoding of `s`. -/
def bytesOf (s : String) : List Nat :=
  s.data.flatMap (fun c => (String.utf8EncodeChar c).map UInt8.toNat)

/-- Lowercase hexadecimal digit of a value below 16. -/
def hexDigit (n : Nat) : Char := "0123456789abcdef".data.getD n '0'

/-- The rendering `fmt.Sprintf("%x", bs)` of a byte array: two lowercase
hexadecimal digits per byte, no separators. -/
def hexLower (bs : List Nat) : String :=
  ⟨bs.flatMap (fun b => [hexDigit (b / 16), hexDigit (b % 16)])⟩

/-! ## Read direction: `InCommand.Run` -/

/-- The struct `InCommand`; the logger only prints and is left out. -/
structure InCommand where
  binaryVersion : String
  downloadDir : String
deriving DecidableEq

/-- The collaborators of the read direction.
* `mkdirAll path` is `os.MkdirAll(path, os.ModePerm)`.
* `pipelines teamName` is `apiClient.Pipelines(teamName)`.
* `pipelineConfig i teamName name` is the raw configuration and the error that
  `apiClient.PipelineConfig(teamName, name)` returns to goroutine `i`.
* `writeFile i path contents` is the error that
  `ioutil.WriteFile(path, []byte(contents), os.ModePerm)` returns in iteration
  `i` of the write loop.
* `writeLeft i path contents` is what that call leaves in its target when it
  fails: `none` when the target is untouched (the file could not be opened),
  `some s` when the target now holds `s` (the file is opened with truncation
  before the data is written, so `s` may be empty, part of the data or all of
  it). -/
structure InWorld where
  mkdirAll : String → Option Err
  pipelines : String → Except Err (List Pipeline)
  pipelineConfig : Nat → String → String → String × Option Err
  writeFile : Nat → String → String → Option Err
  writeLeft : Nat → String → String → Option String

/-- One recorded call of `PipelineConfig`: issuing goroutine, team, pipeline. -/
structure ConfigCall where
  index : Nat
  teamName : String
  pipelineName : String
deriving DecidableEq

/-- One call of `ioutil.WriteFile` that touched its target: the path, what the
file holds once the call has returned (the data on success, what the failing
call left otherwise), and whether the call returned a nil error. -/
structure WriteEvent where
  path : String
  contents : String
  ok : Bool
deriving DecidableEq

/-- One recorded call of `ioutil.WriteFile`: the path and the data passed. -/
structure WriteCall where
  path : String
  data : String
deriving DecidableEq

/-- What the write loop did: the effects on the files, the calls of
`ioutil.WriteFile` made, and the error that ended the loop, if any. -/
structure WriteLoop where
  writes : List WriteEvent
  attempts : List WriteCall
  err : Option Err
deriving DecidableEq

/-- The state the goroutines share: the buffered error channel (oldest entry
first), the slot array `pipelinesWithContents`, and the record of the
`PipelineConfig` calls issued so far. -/
structure Shared where
  errChan : List (Option Err)
  pipelinesWithContents : List pipelineWithContent
  calls : List ConfigCall

/-- The send `ch <- e` on a buffered channel of the given capacity whose
receiver is not yet receiving: it succeeds while the buffer has room and
blocks (`none`) otherwise. -/
def chanSend (capacity : Nat) (ch : List (Option Err)) (e : Option Err) :
    Option (List (Option Err)) :=
  if ch.length < capacity then some (ch ++ [e]) else none

/-- The body of the goroutine started for index `i` and pipeline `p`: fetch the
configuration, enqueue a non-nil error, then fill slot `i`.  The result is
`none` when the send blocks. -/
def goroutine (w : InWorld) (teamName : String) (capacity : Nat) (s : Shared)
    (ip : Nat × Pipeline) : Option Shared :=
  let r := w.pipelineConfig ip.1 teamName ip.2.Name
  let calls := s.calls ++ [⟨ip.1, teamName, ip.2.Name⟩]
  let slots := s.pipelinesWithContents.set ip.1 ⟨ip.2.Name, r.1⟩
  match r.2 with
  | none => some ⟨s.errChan, slots, calls⟩
  | some err =>
    match chanSend capacity s.errChan (some err) with
    | none => none
    | some ch => some ⟨ch, slots, calls⟩

/-- Run the goroutines one after the other in the given order. -/
def runGoroutines (w : InWorld) (teamName : String) (capacity : Nat) :
    List (Nat × Pipeline) → Shared → Option Shared
  | [], s => some s
  | ip :: rest, s =>
    match goroutine w teamName capacity s ip with
    | none => none
    | some s1 => runGoroutines w teamName capacity rest s1

/-- The goroutines `(i, pipelines[i])` in the order of the schedule. -/
def scheduled (order : List Nat) (pipelines : List Pipeline) : List (Nat × Pipeline) :=
  order.filterMap (fun i => pipelines[i]?.map (fun p => (i, p)))

/-- The loop `for err := range errChan` on the closed channel: the first
non-nil entry, if any. -/
def drain : List (Option Err) → Option Err
  | [] => none
  | some e :: _ => some e
  | none :: rest => drain rest

/-- What a failing call of `ioutil.WriteFile` does to the files: nothing when
the target is untouched, otherwise the target holds what the call left. -/
def failedWrite (path : String) : Option String → List WriteEvent
  | none => []
  | some left => [⟨path, left, false⟩]

/-- The write loop over the slot array from iteration `i` on; the first failing
write ends it. -/
def writeAll (c : InCommand) (w : InWorld) :
    Nat → List pipelineWithContent → WriteLoop
  | _, [] => ⟨[], [], none⟩
  | i, p :: rest =>
    let pipelineContentsFilepath := filepathJoin c.downloadDir (p.name ++ ".yml")
    match w.writeFile i pipelineContentsFilepath p.contents with
    | some err =>
      ⟨failedWrite pipelineContentsFilepath
          (w.writeLeft i pipelineContentsFilepath p.contents),
        [⟨pipelineContentsFilepath, p.contents⟩], some err⟩
    | none =>
      let r := writeAll c w (i + 1) rest
      ⟨⟨pipelineContentsFilepath, p.contents, true⟩ :: r.writes,
        ⟨pipelineContentsFilepath, p.contents⟩ :: r.attempts, r.err⟩

/-- How a run of `InCommand.Run` ends. -/
inductive InResult where
  /-- The function returned `(resp, err)`. -/
  | returned (resp : InResponse) (err : Option Err)
  /-- The process was ended by `log.Fatalf`. -/
  | fatal (msg : String)
  /-- The index expression `Teams[0]` was out of range. -/
  | panicked
  /-- A goroutine blocked on the error channel, so `wg.Wait` never returns. -/
  | deadlock
deriving DecidableEq

/-- A run of `InCommand.Run`: how it ended, the `PipelineConfig` calls issued,
the content of the error channel when it was closed, the file writes in the
order they were made, and the calls of `ioutil.WriteFile` in the order they were
made. -/
structure InOutcome where
  result : InResult
  calls : List ConfigCall
  errors : List (Option Err)
  writes : List WriteEvent
  attempts : List WriteCall
deriving DecidableEq

/-- The method `InCommand.Run`, with the goroutines completing in the order
`order`. -/
def InCommand.Run (c : InCommand) (w : InWorld) (order : List Nat) (input : InRequest) :
    InOutcome :=
  match w.mkdirAll c.downloadDir with
  | some err =>
    ⟨.fatal ("Failed to create download directory: " ++ err.msg ++ "\n"), [], [], [], []⟩
  | none =>
    match input.Source.Teams with
    | [] => ⟨.panicked, [], [], [], []⟩
    | team :: _ =>
      let teamName := team.Name
      match w.pipelines teamName with
      | .error err => ⟨.returned emptyInResponse (some err), [], [], [], []⟩
      | .ok pipelines =>
        let s0 : Shared := ⟨[], List.replicate pipelines.length ⟨"", ""⟩, []⟩
        match runGoroutines w teamName pipelines.length (scheduled order pipelines) s0 with
        | none => ⟨.deadlock, [], [], [], []⟩
        | some s =>
          match drain s.errChan with
          | some err => ⟨.returned emptyInResponse (some err), s.calls, s.errChan, [], []⟩
          | none =>
            let r := writeAll c w 0 s.pipelinesWithContents
            match r.err with
            | some err =>
              ⟨.returned emptyInResponse (some err), s.calls, s.errChan, r.writes,
                r.attempts⟩
            | none =>
              ⟨.returned ⟨input.Version, []⟩ none, s.calls, s.errChan, r.writes,
                r.attempts⟩

/-- Storage as a map from path to content. -/
abbrev Storage := String → Option String

/-- The effect of one write on storage: the file at the path of the write
holds what the call left there (the data when the call succeeded), every other
file is as before. -/
def applyWrite (fs : Storage) (e : WriteEvent) : Storage :=
  fun q => if q = e.path then some e.contents else fs q

/-- The effect of a sequence of writes on storage. -/
def applyWrites (fs : Storage) (log : List WriteEvent) : Storage :=
  log.foldl applyWrite fs

/-- A schedule for `n` goroutines: every index below `n` completes exactly
once. -/
def IsSchedule (order : List Nat) (n : Nat) : Prop :=
  order.Perm (List.range n)

instance (order : List Nat) (n : Nat) : Decidable (IsSchedule order n) := by
  unfold IsSchedule; infer_instance

/-- What the fetch for index `i` of the listing returns. -/
def fetchOf (w : InWorld) (teamName : String) (pipelines : List Pipeline) (i : Nat) :
    String × Option Err :=
  w.pipelineConfig i teamName (pipelines.getD i ⟨""⟩).Name

/-- The path the write for index `i` of the listing goes to. -/
def pathOf (c : InCommand) (pipelines : List Pipeline) (i : Nat) : String :=
  filepathJoin c.downloadDir ((pipelines.getD i ⟨""⟩).Name ++ ".yml")

/-! ## Write direction: `OutCommand.Run` -/

/-- The struct `OutCommand`; the logger only prints and is left out, the
collaborators are in `OutWorld`. -/
structure OutCommand where
  binaryVersion : String
  sourcesDir : String
deriving DecidableEq

/-- The collaborators of the write direction.
* `login target username password` is the error of `flyConn.Login`.
* `readFile path` is `ioutil.ReadFile(path)`.
* `yamlUnmarshal b` is the manifest `yaml.Unmarshal(b, &fileContents)` fills
  in, or its error.
* `setPipeline i name configPath varsPaths` is the error `flyConn.SetPipeline`
  returns in iteration `i` of the loop over the manifest.
* `pipelines` is `apiClient.Pipelines()`.
* `getPipeline name` is `flyConn.GetPipeline(name)`: output and error.
* `runForAllPipelines f ps` is `pipelinerunner.RunForAllPipelines(f, ps, logger)`,
  a function of a package that is not among the source files. -/
structure OutWorld where
  login : String → String → String → Option Err
  readFile : String → Except Err String
  yamlUnmarshal : String → Except Err OutParams
  setPipeline : Nat → String → String → List String → Option Err
  pipelines : Except Err (List Pipeline)
  getPipeline : String → String × Option Err
  runForAllPipelines :
    (Nat → Pipeline → String × Option Err) → List Pipeline → Except Err (List String)

/-- The manifest: read from `PipelinesFile` under the sources directory when
that parameter is set, taken from the parameters otherwise. -/
def loadPipelines (c : OutCommand) (w : OutWorld) (input : OutRequest) :
    Except Err (List PipelineSpec) :=
  if input.Params.PipelinesFile ≠ "" then
    match w.readFile (filepathJoin c.sourcesDir input.Params.PipelinesFile) with
    | .error err => .error err
    | .ok b =>
      match w.yamlUnmarshal b with
      | .error err => .error err
      | .ok fileContents => .ok fileContents.Pipelines
  else .ok input.Params.Pipelines

/-- The loop that sets every pipeline of the manifest, from iteration `i` on;
the first error ends it. -/
def setPipelines (c : OutCommand) (w : OutWorld) : Nat → List PipelineSpec → Option Err
  | _, [] => none
  | i, p :: rest =>
    let configFilepath := filepathJoin c.sourcesDir p.ConfigFile
    let varsFilepaths := p.VarsFiles.map (fun v => filepathJoin c.sourcesDir v)
    match w.setPipeline i p.Name configFilepath varsFilepaths with
    | some err => some err
    | none => setPipelines c w (i + 1) rest

/-- The closure `gpFunc`: the output of `GetPipeline` as a string, or the
empty string together with the error. -/
def gpFunc (w : OutWorld) (_index : Nat) (pipeline : Pipeline) : String × Option Err :=
  let r := w.getPipeline pipeline.Name
  match r.2 with
  | some err => ("", some err)
  | none => (r.1, none)

/-- The checksum of the fetched contents: `strings.Join(contents, "")`,
`md5.Sum` of its bytes, rendered with `%x`. -/
def pipelinesChecksum (pipelinesContents : List String) : String :=
  let allContent := String.join pipelinesContents
  hexLower (MD5.sum (bytesOf allContent))

/-- The method `OutCommand.Run`: the response and the error it returns. -/
def OutCommand.Run (c : OutCommand) (w : OutWorld) (input : OutRequest) :
    OutResponse × Option Err :=
  match w.login input.Source.Target input.Source.Username input.Source.Password with
  | some err => (emptyOutResponse, some err)
  | none =>
    match loadPipelines c w input with
    | .error err => (emptyOutResponse, some err)
    | .ok pipelines =>
      match setPipelines c w 0 pipelines with
      | some err => (emptyOutResponse, some err)
      | none =>
        match w.pipelines with
        | .error err => (emptyOutResponse, some err)
        | .ok apiPipelines =>
          match w.runForAllPipelines (gpFunc w) apiPipelines with
          | .error err => (emptyOutResponse, some err)
          | .ok pipelinesContents =>
            (⟨⟨pipelinesChecksum pipelinesContents⟩, []⟩, none)

/-- Modelled from the spec: `pipelinerunner.RunForAllPipelines` is not among
the source files.  One fetch per entity; if any fetch fails one error is
returned and the contents are discarded (here the error of lowest index),
otherwise the contents are returned in index order.  Used for concrete worlds
only. -/
def runForAllPipelinesModel (f : Nat → Pipeline → String × Option Err) :
    Nat → List Pipeline → Except Err (List String)
  | _, [] => .ok []
  | i, p :: rest =>
    match (f i p).2, runForAllPipelinesModel f (i + 1) rest with
    | some err, _ => .error err
    | none, .error err => .error err
    | none, .ok cs => .ok ((f i p).1 :: cs)

/-! ## Specification-side descriptions of a run of the goroutines -/

/-- The slot the goroutine for index `i` fills. -/
def slotOf (w : InWorld) (teamName : String) (pipelines : List Pipeline) (i : Nat) :
    pipelineWithContent :=
  ⟨(pipelines.getD i ⟨""⟩).Name, (fetchOf w teamName pipelines i).1⟩

/-- The calls issued by the goroutines of the indices `done`, in that order. -/
def callsOf (teamName : String) (pipelines : List Pipeline) (done : List Nat) :
    List ConfigCall :=
  done.map (fun i => ⟨i, teamName, (pipelines.getD i ⟨""⟩).Name⟩)

/-- The errors enqueued by the goroutines of the indices `done`, in that
order. -/
def errsOf (w : InWorld) (teamName : String) (pipelines : List Pipeline) (done : List Nat) :
    List (Option Err) :=
  done.filterMap (fun i => (fetchOf w teamName pipelines i).2.map some)

/-- The slot array once the goroutines of the indices `done` have completed. -/
def slotsAfter (w : InWorld) (teamName : String) (pipelines : List Pipeline)
    (done : List Nat) : List pipelineWithContent :=
  (List.range pipelines.length).map
    (fun i => if i ∈ done then slotOf w teamName pipelines i else ⟨"", ""⟩)

/-- The shared state once the goroutines of the indices `done` have completed. -/
def sharedAfter (w : InWorld) (teamName : String) (pipelines : List Pipeline)
    (done : List Nat) : Shared :=
  ⟨errsOf w teamName pipelines done, slotsAfter w teamName pipelines done,
    callsOf teamName pipelines done⟩

/-- The error of the first failing fetch in completion order. -/
def firstError (w : InWorld) (teamName : String) (pipelines : List Pipeline)
    (order : List Nat) : Option Err :=
  order.findSome? (fun i => (fetchOf w teamName pipelines i).2)

/-- The record of a successful write of a slot. -/
def writtenOf (c : InCommand) (p : pipelineWithContent) : WriteEvent :=
  ⟨filepathJoin c.downloadDir (p.name ++ ".yml"), p.contents, true⟩

/-- The record of the call that writes a slot. -/
def attemptedOf (c : InCommand) (p : pipelineWithContent) : WriteCall :=
  ⟨filepathJoin c.downloadDir (p.name ++ ".yml"), p.contents⟩

/-- The record of the call of `ioutil.WriteFile` for index `i` of the listing. -/
def attemptOf (c : InCommand) (w : InWorld) (teamName : String) (pipelines : List Pipeline)
    (i : Nat) : WriteCall :=
  ⟨pathOf c pipelines i, (fetchOf w teamName pipelines i).1⟩

/-- The record of the successful write for index `i` of the listing. -/
def writeOf (c : InCommand) (w : InWorld) (teamName : String) (pipelines : List Pipeline)
    (i : Nat) : WriteEvent :=
  ⟨pathOf c pipelines i, (fetchOf w teamName pipelines i).1, true⟩

/-! ## Concrete worlds of the read direction -/

/-- A world of the read direction: the listing has the given names, the fetch
for index `i` returns the `i`-th entry of `results`, the write of iteration `i`
returns the `i`-th entry of `writeErrs` (no error beyond its end) and, when it
fails, leaves in its target what `left` says for the data. -/
def listedWorldLeaving (names : List String) (results : List (String × Option Err))
    (writeErrs : List (Option Err)) (left : String → Option String) : InWorld where
  mkdirAll := fun _ => none
  pipelines := fun _ => .ok (names.map Pipeline.mk)
  pipelineConfig := fun i _ _ => results.getD i ("", none)
  writeFile := fun i _ _ => writeErrs.getD i none
  writeLeft := fun _ _ data => left data

/-- The world `listedWorldLeaving` in which a failing write leaves its target
truncated to the empty file. -/
def listedWorld (names : List String) (results : List (String × Option Err))
    (writeErrs : List (Option Err)) : InWorld :=
  listedWorldLeaving names results writeErrs (fun _ => some "")

/-- A request of the read direction for team `main` with version `v1`. -/
def sampleInRequest : InRequest := ⟨⟨"", "", "", [⟨"main"⟩]⟩, ⟨"v1"⟩⟩

/-- A command that downloads to the directory `d`. -/
def sampleInCommand : InCommand := ⟨"0.0.0", "d"⟩

/-- A listing in which the names `a` and `./a` denote the same file. -/
def aliasWorld : InWorld :=
  listedWorld ["a", "a", "./a"] [("1", none), ("2", none), ("3", none)] []

/-! ## Concrete worlds of the write direction -/

/-- A world of the write direction: `remote` lists the pipelines the server
holds after the upload, each with the output and error of `GetPipeline`; the
pipeline runner is the model `runForAllPipelinesModel`. -/
def flyWorld (remote : List (String × String × Option Err)) : OutWorld where
  login := fun _ _ _ => none
  readFile := fun _ => .error ⟨"no such file"⟩
  yamlUnmarshal := fun _ => .error ⟨"cannot unmarshal"⟩
  setPipeline := fun _ _ _ _ => none
  pipelines := .ok (remote.map (fun r => ⟨r.1⟩))
  getPipeline := fun name => (remote.lookup name).getD ("", some ⟨"not found"⟩)
  runForAllPipelines := fun f ps => runForAllPipelinesModel f 0 ps

/-- A request of the write direction that uploads one pipeline. -/
def sampleOutRequest : OutRequest :=
  ⟨⟨"target", "user", "secret", []⟩, ⟨[⟨"p", "p.yml", ["vars.yml"]⟩], ""⟩⟩

/-- A command whose sources directory is `src`. -/
def sampleOutCommand : OutCommand := ⟨"0.0.0", "src"⟩

/-! ## The library functions on known inputs -/

/-- The test suite of RFC 1321 (one and two blocks) for `MD5.sum`. -/
theorem MD5.sum_rfc1321_suite :
    hexLower (MD5.sum (bytesOf "")) = "d41d8cd98f00b204e9800998ecf8427e" ∧
    hexLower (MD5.sum (bytesOf "a")) = "0cc175b9c0f1b6a831c399e269772661" ∧
    hexLower (MD5.sum (bytesOf "abc")) = "900150983cd24fb0d6963f7d28e17f72" ∧
    hexLower (MD5.sum (bytesOf "message digest")) = "f96b697d7cb7938d525a2f31aaf161d0" ∧
    hexLower (MD5.sum (bytesOf
      "12345678901234567890123456789012345678901234567890123456789012345678901234567890"))
      = "57edf4a22be3c955ac49da2e2107b67a" := by
  refine ⟨by decide, by decide, by decide, by decide, by decide⟩

/-- The documented examples of `filepath.Join` for two arguments, and some
cases of lexical cleaning. -/
theorem filepathJoin_examples :
    filepathJoin "a" "b/c" = "a/b/c" ∧
    filepathJoin "a/b" "c" = "a/b/c" ∧
    filepathJoin "a/b" "/c" = "a/b/c" ∧
    filepathJoin "a/b" "../../../xyz" = "../xyz" ∧
    filepathJoin "" "a.yml" = "a.yml" ∧
    filepathJoin "/" "a.yml" = "/a.yml" ∧
    filepathJoin "/tmp/out/" "a.yml" = "/tmp/out/a.yml" ∧
    filepathClean "a//b/./c/.." = "a/b" ∧
    filepathClean "/../a" = "/a" ∧
    filepathClean "" = "." := by
  decide

/-! ## Lemmas on the goroutines -/

theorem errsOf_length_le (w : InWorld) (teamName : String) (ps : List Pipeline)
    (done : List Nat) : (errsOf w teamName ps done).length ≤ done.length := by
  unfold errsOf
  exact List.length_filterMap_le _ _

theorem errsOf_append (w : InWorld) (teamName : String) (ps : List Pipeline)
    (l₁ l₂ : List Nat) :
    errsOf w teamName ps (l₁ ++ l₂) = errsOf w teamName ps l₁ ++ errsOf w teamName ps l₂ := by
  unfold errsOf
  exact List.filterMap_append _ _ _

theorem slotsAfter_set (w : InWorld) (teamName : String) (ps : List Pipeline)
    (done : List Nat) (i : Nat) :
    (slotsAfter w teamName ps done).set i (slotOf w teamName ps i)
      = slotsAfter w teamName ps (done ++ [i]) := by
  apply List.ext_getElem
  · simp [slotsAfter]
  · intro j h₁ h₂
    have hj : j < ps.length := by simpa [slotsAfter] using h₂
    by_cases hij : i = j
    · subst hij
      simp [slotsAfter, List.getElem_set]
    · have hji : ¬ j = i := fun h => hij h.symm
      simp [slotsAfter, List.getElem_set, hij, hji]

theorem goroutine_sharedAfter (w : InWorld) (teamName : String) (ps : List Pipeline)
    (done : List Nat) (i : Nat) (p : Pipeline) (hp : ps[i]? = some p)
    (hroom : done.length < ps.length) :
    goroutine w teamName ps.length (sharedAfter w teamName ps done) (i, p)
      = some (sharedAfter w teamName ps (done ++ [i])) := by
  have hi : i < ps.length := (List.getElem?_eq_some_iff.mp hp).1
  have hpi : ps.getD i ⟨""⟩ = p := by
    simp [List.getD_eq_getElem?_getD, hp]
  have hslot : (⟨p.Name, (w.pipelineConfig i teamName p.Name).1⟩ : pipelineWithContent)
      = slotOf w teamName ps i := by
    simp [slotOf, fetchOf, hp]
  have hcalls : callsOf teamName ps done ++ [⟨i, teamName, p.Name⟩]
      = callsOf teamName ps (done ++ [i]) := by
    simp [callsOf, hp]
  have hlen : (errsOf w teamName ps done).length < ps.length :=
    lt_of_le_of_lt (errsOf_length_le w teamName ps done) hroom
  have hfetch : w.pipelineConfig i teamName p.Name = fetchOf w teamName ps i := by
    simp [fetchOf, hp]
  unfold goroutine
  simp only [sharedAfter, hslot, hcalls, slotsAfter_set]
  rw [hfetch]
  cases hr : (fetchOf w teamName ps i).2 with
  | none =>
    simp [errsOf_append, errsOf, hr]
  | some err =>
    simp [chanSend, hlen, errsOf_append]
    simp [errsOf, hr]

theorem nodup_bounded_length_le (l : List Nat) (n : Nat) (hnd : l.Nodup)
    (hlt : ∀ i ∈ l, i < n) : l.length ≤ n := by
  have hsub : l ⊆ List.range n := fun i hi => List.mem_range.mpr (hlt i hi)
  have := (List.subperm_of_subset hnd hsub).length_le
  simpa using this

theorem runGoroutines_sharedAfter (w : InWorld) (teamName : String) (ps : List Pipeline) :
    ∀ (todo done : List Nat), (done ++ todo).Nodup → (∀ i ∈ done ++ todo, i < ps.length) →
      runGoroutines w teamName ps.length (scheduled todo ps) (sharedAfter w teamName ps done)
        = some (sharedAfter w teamName ps (done ++ todo)) := by
  intro todo
  induction todo with
  | nil => intro done _ _; simp [scheduled, runGoroutines]
  | cons i rest ih =>
    intro done hnd hlt
    have hi : i < ps.length := hlt i (by simp)
    have hlen := nodup_bounded_length_le _ _ hnd hlt
    have hroom : done.length < ps.length := by
      simp at hlen; omega
    have hp : ps[i]? = some ps[i] := List.getElem?_eq_getElem hi
    have hsched : scheduled (i :: rest) ps = (i, ps[i]) :: scheduled rest ps := by
      simp [scheduled, List.filterMap_cons, hp]
    rw [hsched]
    simp only [runGoroutines, goroutine_sharedAfter w teamName ps done i ps[i] hp hroom]
    have hnd2 : ((done ++ [i]) ++ rest).Nodup := by simpa using hnd
    have hlt2 : ∀ j ∈ (done ++ [i]) ++ rest, j < ps.length := by
      intro j hj; exact hlt j (by simpa using hj)
    simpa using ih (done ++ [i]) hnd2 hlt2

theorem sharedAfter_nil (w : InWorld) (teamName : String) (ps : List Pipeline) :
    sharedAfter w teamName ps []
      = ⟨[], List.replicate ps.length ⟨"", ""⟩, []⟩ := by
  simp only [sharedAfter, errsOf, callsOf, slotsAfter, List.filterMap_nil, List.map_nil,
    List.not_mem_nil, if_false]
  congr 1
  apply List.ext_getElem <;> simp

theorem slotsAfter_schedule (w : InWorld) (teamName : String) (ps : List Pipeline)
    (order : List Nat) (hord : IsSchedule order ps.length) :
    slotsAfter w teamName ps order = (List.range ps.length).map (slotOf w teamName ps) := by
  unfold slotsAfter
  apply List.map_congr_left
  intro i hi
  have : i ∈ order := (List.Perm.mem_iff hord).mpr hi
  simp [this]

/-- With a schedule, no goroutine blocks and the shared state at the barrier is
determined by the fetch results and the order of completion. -/
theorem runGoroutines_schedule (w : InWorld) (teamName : String) (ps : List Pipeline)
    (order : List Nat) (hord : IsSchedule order ps.length) :
    runGoroutines w teamName ps.length (scheduled order ps)
        ⟨[], List.replicate ps.length ⟨"", ""⟩, []⟩
      = some ⟨errsOf w teamName ps order, (List.range ps.length).map (slotOf w teamName ps),
          callsOf teamName ps order⟩ := by
  have hnd : ([] ++ order).Nodup := by
    simpa using (List.Perm.nodup_iff hord).mpr (List.nodup_range _)
  have hlt : ∀ i ∈ [] ++ order, i < ps.length := by
    intro i hi
    exact List.mem_range.mp ((List.Perm.mem_iff hord).mp (by simpa using hi))
  have h := runGoroutines_sharedAfter w teamName ps order [] hnd hlt
  rw [sharedAfter_nil] at h
  rw [h]
  simp [sharedAfter, slotsAfter_schedule w teamName ps order hord]

/-! ## Lemmas on the drain and the write loop -/

theorem drain_errsOf (w : InWorld) (teamName : String) (ps : List Pipeline)
    (order : List Nat) :
    drain (errsOf w teamName ps order) = firstError w teamName ps order := by
  induction order with
  | nil => simp [errsOf, firstError, drain]
  | cons i rest ih =>
    cases hr : (fetchOf w teamName ps i).2 with
    | none =>
      have h1 : errsOf w teamName ps (i :: rest) = errsOf w teamName ps rest := by
        simp [errsOf, List.filterMap_cons, hr]
      have h2 : firstError w teamName ps (i :: rest) = firstError w teamName ps rest := by
        simp [firstError, List.findSome?_cons, hr]
      rw [h1, h2, ih]
    | some err =>
      have h1 : errsOf w teamName ps (i :: rest)
          = some err :: errsOf w teamName ps rest := by
        simp [errsOf, List.filterMap_cons, hr]
      have h2 : firstError w teamName ps (i :: rest) = some err := by
        simp [firstError, List.findSome?_cons, hr]
      rw [h1, h2]
      simp [drain]

theorem firstError_none (w : InWorld) (teamName : String) (ps : List Pipeline)
    (order : List Nat) (h : ∀ i ∈ order, (fetchOf w teamName ps i).2 = none) :
    firstError w teamName ps order = none := by
  induction order with
  | nil => simp [firstError]
  | cons i rest ih =>
    have hi := h i (by simp)
    have hrest : ∀ j ∈ rest, (fetchOf w teamName ps j).2 = none :=
      fun j hj => h j (by simp [hj])
    have := ih hrest
    simp [firstError, List.findSome?_cons, hi] at this ⊢
    exact this

theorem firstError_split (w : InWorld) (teamName : String) (ps : List Pipeline)
    (before after : List Nat) (k : Nat) (err : Err)
    (hbefore : ∀ i ∈ before, (fetchOf w teamName ps i).2 = none)
    (hk : (fetchOf w teamName ps k).2 = some err) :
    firstError w teamName ps (before ++ k :: after) = some err := by
  induction before with
  | nil => simp [firstError, List.findSome?_cons, hk]
  | cons i rest ih =>
    have hi := hbefore i (by simp)
    have hrest : ∀ j ∈ rest, (fetchOf w teamName ps j).2 = none :=
      fun j hj => hbefore j (by simp [hj])
    have := ih hrest
    simp [firstError, List.findSome?_cons, hi] at this ⊢
    exact this

theorem firstError_isSome (w : InWorld) (teamName : String) (ps : List Pipeline)
    (order : List Nat) (k : Nat) (hk : k ∈ order)
    (hfail : (fetchOf w teamName ps k).2 ≠ none) :
    ∃ err, firstError w teamName ps order = some err := by
  induction order with
  | nil => simp at hk
  | cons i rest ih =>
    cases hr : (fetchOf w teamName ps i).2 with
    | some err => exact ⟨err, by simp [firstError, List.findSome?_cons, hr]⟩
    | none =>
      have hne : k ≠ i := by
        intro h; subst h; exact hfail hr
      have hk2 : k ∈ rest := by
        rcases List.mem_cons.mp hk with h | h
        · exact absurd h hne
        · exact h
      obtain ⟨err, he⟩ := ih hk2
      refine ⟨err, ?_⟩
      simp [firstError, List.findSome?_cons, hr] at he ⊢
      exact he

theorem writeAll_ok (c : InCommand) (w : InWorld) :
    ∀ (slots : List pipelineWithContent) (k : Nat),
      (∀ j p, slots[j]? = some p →
        w.writeFile (k + j) (filepathJoin c.downloadDir (p.name ++ ".yml")) p.contents = none) →
      writeAll c w k slots = ⟨slots.map (writtenOf c), slots.map (attemptedOf c), none⟩ := by
  intro slots
  induction slots with
  | nil => intro k _; simp [writeAll]
  | cons p rest ih =>
    intro k h
    have h0 := h 0 p (by simp)
    have hrest : ∀ j q, rest[j]? = some q →
        w.writeFile (k + 1 + j) (filepathJoin c.downloadDir (q.name ++ ".yml")) q.contents
          = none := by
      intro j q hq
      have := h (j + 1) q (by simpa using hq)
      rwa [show k + (j + 1) = k + 1 + j by omega] at this
    simp only [Nat.add_zero] at h0
    simp [writeAll, h0, ih (k + 1) hrest, writtenOf, attemptedOf]

theorem writeAll_fail (c : InCommand) (w : InWorld) :
    ∀ (slots : List pipelineWithContent) (k m : Nat) (p : pipelineWithContent) (err : Err),
      (∀ j q, j < m → slots[j]? = some q →
        w.writeFile (k + j) (filepathJoin c.downloadDir (q.name ++ ".yml")) q.contents = none) →
      slots[m]? = some p →
      w.writeFile (k + m) (filepathJoin c.downloadDir (p.name ++ ".yml")) p.contents
        = some err →
      writeAll c w k slots
        = ⟨(slots.take m).map (writtenOf c)
            ++ failedWrite (filepathJoin c.downloadDir (p.name ++ ".yml"))
                (w.writeLeft (k + m) (filepathJoin c.downloadDir (p.name ++ ".yml"))
                  p.contents),
            (slots.take m).map (attemptedOf c) ++ [attemptedOf c p], some err⟩ := by
  intro slots
  induction slots with
  | nil => intro k m p err _ hp _; simp at hp
  | cons q rest ih =>
    intro k m p err h hp hf
    cases m with
    | zero =>
      have hq : q = p := by simpa using hp
      subst hq
      simp only [Nat.add_zero] at hf
      simp [writeAll, hf, attemptedOf]
    | succ m =>
      have h0 := h 0 q (by omega) (by simp)
      simp only [Nat.add_zero] at h0
      have hp2 : rest[m]? = some p := by simpa using hp
      have hf2 : w.writeFile (k + 1 + m) (filepathJoin c.downloadDir (p.name ++ ".yml"))
          p.contents = some err := by
        rwa [show k + (m + 1) = k + 1 + m by omega] at hf
      have hrest : ∀ j r, j < m → rest[j]? = some r →
          w.writeFile (k + 1 + j) (filepathJoin c.downloadDir (r.name ++ ".yml")) r.contents
            = none := by
        intro j r hj hr
        have := h (j + 1) r (by omega) (by simpa using hr)
        rwa [show k + (j + 1) = k + 1 + j by omega] at this
      simp [writeAll, h0, ih (k + 1) m p err hrest hp2 hf2, writtenOf, attemptedOf,
        show k + (m + 1) = k + 1 + m by omega]

/-- Once directory creation and listing have succeeded, a run under a schedule
is determined by the first error in completion order and by the write loop
over the slots in index order. -/
theorem Run_eq (c : InCommand) (w : InWorld) (order : List Nat) (input : InRequest)
    (team : Team) (ps : List Pipeline)
    (hmk : w.mkdirAll c.downloadDir = none)
    (hteam : input.Source.Teams.head? = some team)
    (hlist : w.pipelines team.Name = .ok ps)
    (hord : IsSchedule order ps.length) :
    c.Run w order input =
      match firstError w team.Name ps order with
      | some err =>
        ⟨.returned emptyInResponse (some err), callsOf team.Name ps order,
          errsOf w team.Name ps order, [], []⟩
      | none =>
        match (writeAll c w 0 ((List.range ps.length).map (slotOf w team.Name ps))).err with
        | some err =>
          ⟨.returned emptyInResponse (some err), callsOf team.Name ps order,
            errsOf w team.Name ps order,
            (writeAll c w 0 ((List.range ps.length).map (slotOf w team.Name ps))).writes,
            (writeAll c w 0 ((List.range ps.length).map (slotOf w team.Name ps))).attempts⟩
        | none =>
          ⟨.returned ⟨input.Version, []⟩ none, callsOf team.Name ps order,
            errsOf w team.Name ps order,
            (writeAll c w 0 ((List.range ps.length).map (slotOf w team.Name ps))).writes,
            (writeAll c w 0 ((List.range ps.length).map (slotOf w team.Name ps))).attempts⟩ := by
  obtain ⟨rest, hteams⟩ : ∃ rest, input.Source.Teams = team :: rest := by
    cases ht : input.Source.Teams with
    | nil => simp [ht] at hteam
    | cons t rest =>
      simp [ht] at hteam
      exact ⟨rest, by rw [hteam]⟩
  unfold InCommand.Run
  simp only [hmk, hteams, hlist, runGoroutines_schedule w team.Name ps order hord,
    drain_errsOf]

theorem fetchOf_eq (w : InWorld) (teamName : String) (ps : List Pipeline) (i : Nat)
    (hi : i < ps.length) :
    fetchOf w teamName ps i = w.pipelineConfig i teamName ps[i].Name := by
  simp [fetchOf, List.getD_eq_getElem?_getD, List.getElem?_eq_getElem hi]

theorem pathOf_eq (c : InCommand) (ps : List Pipeline) (i : Nat) (hi : i < ps.length) :
    pathOf c ps i = filepathJoin c.downloadDir (ps[i].Name ++ ".yml") := by
  simp [pathOf, List.getD_eq_getElem?_getD, List.getElem?_eq_getElem hi]

theorem mem_schedule_lt (order : List Nat) (n : Nat) (hord : IsSchedule order n)
    (i : Nat) (hi : i ∈ order) : i < n :=
  List.mem_range.mp ((List.Perm.mem_iff hord).mp hi)

theorem lt_mem_schedule (order : List Nat) (n : Nat) (hord : IsSchedule order n)
    (i : Nat) (hi : i < n) : i ∈ order :=
  (List.Perm.mem_iff hord).mpr (List.mem_range.mpr hi)

/-- When every fetch and every write succeeds, the run returns the input
version and has written the slots in index order. -/
theorem Run_all_ok (c : InCommand) (w : InWorld) (order : List Nat) (input : InRequest)
    (team : Team) (ps : List Pipeline)
    (hmk : w.mkdirAll c.downloadDir = none)
    (hteam : input.Source.Teams.head? = some team)
    (hlist : w.pipelines team.Name = .ok ps)
    (hord : IsSchedule order ps.length)
    (hfetch : ∀ i, i < ps.length → (fetchOf w team.Name ps i).2 = none)
    (hwrite : ∀ i, i < ps.length →
      w.writeFile i (pathOf c ps i) (fetchOf w team.Name ps i).1 = none) :
    c.Run w order input =
      ⟨.returned ⟨input.Version, []⟩ none, callsOf team.Name ps order, [],
        (List.range ps.length).map (writeOf c w team.Name ps),
        (List.range ps.length).map (attemptOf c w team.Name ps)⟩ := by
  have hfe : firstError w team.Name ps order = none :=
    firstError_none w team.Name ps order
      (fun i hi => hfetch i (mem_schedule_lt order _ hord i hi))
  have herrs : errsOf w team.Name ps order = [] := by
    unfold errsOf
    rw [List.filterMap_eq_nil_iff]
    intro i hi
    simp [hfetch i (mem_schedule_lt order _ hord i hi)]
  have hw : writeAll c w 0 ((List.range ps.length).map (slotOf w team.Name ps))
      = ⟨((List.range ps.length).map (slotOf w team.Name ps)).map (writtenOf c),
          ((List.range ps.length).map (slotOf w team.Name ps)).map (attemptedOf c), none⟩ := by
    apply writeAll_ok
    intro j p hp
    rw [List.getElem?_map] at hp
    have hj : j < ps.length := by
      by_contra hge
      have : (List.range ps.length)[j]? = none := by
        apply List.getElem?_eq_none
        simpa using hge
      simp [this] at hp
    have hrange : (List.range ps.length)[j]? = some j := by
      rw [List.getElem?_eq_getElem (by simpa using hj)]
      simp
    rw [hrange] at hp
    have hpe : slotOf w team.Name ps j = p := by simpa using hp
    subst hpe
    simpa [slotOf, pathOf] using hwrite j hj
  rw [Run_eq c w order input team ps hmk hteam hlist hord, hfe]
  simp only [hw, herrs, List.map_map]
  rfl

/-! ## Read direction: the claims -/

/-- C1: if directory creation, the listing, every fetch and every write succeed,
then under every completion order `InCommand.Run` returns the pass-through
response, performs exactly one write per listed pipeline, and the `i`-th write
goes to `filepath.Join(downloadDir, name_i + ".yml")` with the raw configuration
returned by the fetch for index `i`. -/
theorem read_all_succeed_writes_in_index_order (c : InCommand) (w : InWorld)
    (order : List Nat) (input : InRequest) (team : Team) (ps : List Pipeline)
    (hmk : w.mkdirAll c.downloadDir = none)
    (hteam : input.Source.Teams.head? = some team)
    (hlist : w.pipelines team.Name = .ok ps)
    (hord : IsSchedule order ps.length)
    (hfetch : ∀ i (hi : i < ps.length), (w.pipelineConfig i team.Name ps[i].Name).2 = none)
    (hwrite : ∀ i (hi : i < ps.length),
      w.writeFile i (filepathJoin c.downloadDir (ps[i].Name ++ ".yml"))
        (w.pipelineConfig i team.Name ps[i].Name).1 = none) :
    (c.Run w order input).result = .returned ⟨input.Version, []⟩ none ∧
    (c.Run w order input).writes.length = ps.length ∧
    ∀ i (hi : i < ps.length),
      (c.Run w order input).writes[i]? =
        some ⟨filepathJoin c.downloadDir (ps[i].Name ++ ".yml"),
          (w.pipelineConfig i team.Name ps[i].Name).1, true⟩ := by
  have h := Run_all_ok c w order input team ps hmk hteam hlist hord
    (fun i hi => by rw [fetchOf_eq w team.Name ps i hi]; exact hfetch i hi)
    (fun i hi => by
      rw [fetchOf_eq w team.Name ps i hi, pathOf_eq c ps i hi]; exact hwrite i hi)
  rw [h]
  refine ⟨rfl, by simp, ?_⟩
  intro i hi
  simp [hi, writeOf, fetchOf_eq w team.Name ps i hi, pathOf_eq c ps i hi]

/-- Witness for C1: names a, b, c with contents X, Y, Z, fetches completing in
the order c, a, b, give `d/a.yml = X`, `d/b.yml = Y`, `d/c.yml = Z`. -/
theorem read_all_succeed_writes_in_index_order_witness :
    (sampleInCommand.Run
        (listedWorld ["a", "b", "c"] [("X", none), ("Y", none), ("Z", none)] [])
        [2, 0, 1] sampleInRequest).writes
      = [⟨"d/a.yml", "X", true⟩, ⟨"d/b.yml", "Y", true⟩, ⟨"d/c.yml", "Z", true⟩] := by
  have h := read_all_succeed_writes_in_index_order sampleInCommand
    (listedWorld ["a", "b", "c"] [("X", none), ("Y", none), ("Z", none)] [])
    [2, 0, 1] sampleInRequest ⟨"main"⟩ [⟨"a"⟩, ⟨"b"⟩, ⟨"c"⟩]
    (by rfl) (by rfl) (by rfl) (by decide) (by decide) (by decide)
  have h0 := h.2.2 0 (by decide)
  have h1 := h.2.2 1 (by decide)
  have h2 := h.2.2 2 (by decide)
  have hlen := h.2.1
  apply List.ext_getElem?
  intro n
  match n with
  | 0 => rw [h0]; decide
  | 1 => rw [h1]; decide
  | 2 => rw [h2]; decide
  | n + 3 =>
    rw [List.getElem?_eq_none (by rw [hlen]; simp)]
    simp

/-- When some fetch fails, the run returns the first error in completion order
together with the empty response and writes nothing. -/
theorem Run_first_error (c : InCommand) (w : InWorld) (order : List Nat) (input : InRequest)
    (team : Team) (ps : List Pipeline) (err : Err)
    (hmk : w.mkdirAll c.downloadDir = none)
    (hteam : input.Source.Teams.head? = some team)
    (hlist : w.pipelines team.Name = .ok ps)
    (hord : IsSchedule order ps.length)
    (hfe : firstError w team.Name ps order = some err) :
    c.Run w order input =
      ⟨.returned emptyInResponse (some err), callsOf team.Name ps order,
        errsOf w team.Name ps order, [], []⟩ := by
  rw [Run_eq c w order input team ps hmk hteam hlist hord, hfe]

/-- C2: if directory creation and the listing succeed and at least one fetch
returns a non-nil error, then under every completion order `InCommand.Run`
returns a non-nil error with the empty response and performs no file write. -/
theorem read_any_fetch_fails_no_writes (c : InCommand) (w : InWorld)
    (order : List Nat) (input : InRequest) (team : Team) (ps : List Pipeline)
    (hmk : w.mkdirAll c.downloadDir = none)
    (hteam : input.Source.Teams.head? = some team)
    (hlist : w.pipelines team.Name = .ok ps)
    (hord : IsSchedule order ps.length)
    (hfail : ∃ i, ∃ hi : i < ps.length, (w.pipelineConfig i team.Name ps[i].Name).2 ≠ none) :
    (∃ err, (c.Run w order input).result = .returned emptyInResponse (some err)) ∧
    (c.Run w order input).writes = [] := by
  obtain ⟨i, hi, hne⟩ := hfail
  have hne2 : (fetchOf w team.Name ps i).2 ≠ none := by
    rw [fetchOf_eq w team.Name ps i hi]; exact hne
  obtain ⟨err, he⟩ := firstError_isSome w team.Name ps order i
    (lt_mem_schedule order _ hord i hi) hne2
  rw [Run_first_error c w order input team ps err hmk hteam hlist hord he]
  exact ⟨⟨err, rfl⟩, rfl⟩

/-- Witness for C2: names a, b, c where only the fetch for b fails; no file is
written although the fetches for a and c succeeded. -/
theorem read_any_fetch_fails_no_writes_witness :
    (∃ err, (sampleInCommand.Run
        (listedWorld ["a", "b", "c"] [("X", none), ("", some ⟨"boom"⟩), ("Z", none)] [])
        [0, 2, 1] sampleInRequest).result = .returned emptyInResponse (some err)) ∧
    (sampleInCommand.Run
        (listedWorld ["a", "b", "c"] [("X", none), ("", some ⟨"boom"⟩), ("Z", none)] [])
        [0, 2, 1] sampleInRequest).writes = [] :=
  read_any_fetch_fails_no_writes sampleInCommand
    (listedWorld ["a", "b", "c"] [("X", none), ("", some ⟨"boom"⟩), ("Z", none)] [])
    [0, 2, 1] sampleInRequest ⟨"main"⟩ [⟨"a"⟩, ⟨"b"⟩, ⟨"c"⟩]
    (by rfl) (by rfl) (by rfl) (by decide) ⟨1, by decide, by decide⟩

/-- C5: when a fetch fails, the error `InCommand.Run` returns is the head of the
error queue, which is the error of the failing fetch that completed first: if
the completion order is `before ++ k :: after`, no fetch of `before` fails and
the fetch for `k` fails with `err`, the run returns `err`.  In particular, when
the fetch for `k` is the only one that fails, the run returns its error. -/
theorem read_returns_first_completed_error (c : InCommand) (w : InWorld)
    (order : List Nat) (input : InRequest) (team : Team) (ps : List Pipeline)
    (hmk : w.mkdirAll c.downloadDir = none)
    (hteam : input.Source.Teams.head? = some team)
    (hlist : w.pipelines team.Name = .ok ps)
    (hord : IsSchedule order ps.length) :
    (∀ (before after : List Nat) (k : Nat) (err : Err),
      order = before ++ k :: after →
      (∀ i ∈ before, (fetchOf w team.Name ps i).2 = none) →
      (fetchOf w team.Name ps k).2 = some err →
      (c.Run w order input).result = .returned emptyInResponse (some err) ∧
      (c.Run w order input).errors.head? = some (some err)) ∧
    (∀ (k : Nat) (err : Err), k < ps.length →
      (fetchOf w team.Name ps k).2 = some err →
      (∀ i, i < ps.length → i ≠ k → (fetchOf w team.Name ps i).2 = none) →
      (c.Run w order input).result = .returned emptyInResponse (some err)) := by
  have key : ∀ (before after : List Nat) (k : Nat) (err : Err),
      order = before ++ k :: after →
      (∀ i ∈ before, (fetchOf w team.Name ps i).2 = none) →
      (fetchOf w team.Name ps k).2 = some err →
      (c.Run w order input).result = .returned emptyInResponse (some err) ∧
      (c.Run w order input).errors.head? = some (some err) := by
    intro before after k err hsplit hbefore hk
    have hfe : firstError w team.Name ps order = some err := by
      rw [hsplit]; exact firstError_split w team.Name ps before after k err hbefore hk
    rw [Run_first_error c w order input team ps err hmk hteam hlist hord hfe]
    refine ⟨rfl, ?_⟩
    have hnil : errsOf w team.Name ps before = [] := by
      unfold errsOf
      rw [List.filterMap_eq_nil_iff]
      intro i hi
      simp [hbefore i hi]
    have : errsOf w team.Name ps order
        = some err :: errsOf w team.Name ps after := by
      rw [hsplit, errsOf_append, hnil]
      simp [errsOf, List.filterMap_cons, hk]
    simp [this]
  refine ⟨key, ?_⟩
  intro k err hk hkerr hothers
  have hmem : k ∈ order := lt_mem_schedule order _ hord k hk
  obtain ⟨before, after, hsplit⟩ := List.append_of_mem hmem
  have hnd : order.Nodup := (List.Perm.nodup_iff hord).mpr (List.nodup_range _)
  have hbefore : ∀ i ∈ before, (fetchOf w team.Name ps i).2 = none := by
    intro i hi
    have hio : i ∈ order := by rw [hsplit]; simp [hi]
    have hne : i ≠ k := by
      intro h
      subst h
      rw [hsplit] at hnd
      have := (List.nodup_append.mp hnd).2.2
      exact this hi (by simp)
    exact hothers i (mem_schedule_lt order _ hord i hio) hne
  exact (key before after k err hsplit hbefore hkerr).1

/-- Witness for C5: names a, b where only the fetch for b fails: the run
returns the error of the fetch for b. -/
theorem read_returns_first_completed_error_witness :
    (sampleInCommand.Run
        (listedWorld ["a", "b"] [("X", none), ("", some ⟨"b failed"⟩)] [])
        [1, 0] sampleInRequest).result = .returned emptyInResponse (some ⟨"b failed"⟩) :=
  (read_returns_first_completed_error sampleInCommand
    (listedWorld ["a", "b"] [("X", none), ("", some ⟨"b failed"⟩)] [])
    [1, 0] sampleInRequest ⟨"main"⟩ [⟨"a"⟩, ⟨"b"⟩]
    (by rfl) (by rfl) (by rfl) (by decide)).2 1 ⟨"b failed"⟩ (by decide) (by rfl)
    (by decide)

/-- Completion order, not index order, selects the error: when the fetches for
a and b both fail and b completes first, the run returns the error of b. -/
theorem read_error_follows_completion_order :
    (sampleInCommand.Run
        (listedWorld ["a", "b"] [("", some ⟨"a failed"⟩), ("", some ⟨"b failed"⟩)] [])
        [1, 0] sampleInRequest).result = .returned emptyInResponse (some ⟨"b failed"⟩) ∧
    (sampleInCommand.Run
        (listedWorld ["a", "b"] [("", some ⟨"a failed"⟩), ("", some ⟨"b failed"⟩)] [])
        [0, 1] sampleInRequest).result = .returned emptyInResponse (some ⟨"a failed"⟩) := by
  decide

/-- C6: whenever `InCommand.Run` returns a nil error, the response carries the
input version unchanged and empty metadata, for every world, input and order of
completion; for the empty listing the run succeeds without any file write. -/
theorem read_success_passes_version_through (c : InCommand) (w : InWorld)
    (order : List Nat) (input : InRequest) :
    (∀ resp, (c.Run w order input).result = .returned resp none →
      resp = ⟨input.Version, []⟩) ∧
    (∀ team, w.mkdirAll c.downloadDir = none →
      input.Source.Teams.head? = some team →
      w.pipelines team.Name = .ok [] →
      (c.Run w order input).result = .returned ⟨input.Version, []⟩ none ∧
      (c.Run w order input).writes = []) := by
  constructor
  · intro resp h
    unfold InCommand.Run at h
    cases hmk : w.mkdirAll c.downloadDir with
    | some e => simp [hmk] at h
    | none =>
      cases hts : input.Source.Teams with
      | nil => simp [hmk, hts] at h
      | cons team rest =>
        cases hl : w.pipelines team.Name with
        | error e => simp [hmk, hts, hl] at h
        | ok ps =>
          cases hr : runGoroutines w team.Name ps.length (scheduled order ps)
              ⟨[], List.replicate ps.length ⟨"", ""⟩, []⟩ with
          | none => simp [hmk, hts, hl, hr] at h
          | some s =>
            cases hd : drain s.errChan with
            | some e => simp [hmk, hts, hl, hr, hd] at h
            | none =>
              cases hw : (writeAll c w 0 s.pipelinesWithContents).err with
              | some e => simp [hmk, hts, hl, hr, hd, hw] at h
              | none =>
                simp [hmk, hts, hl, hr, hd, hw] at h
                exact h.symm
  · intro team hmk hteam hlist
    obtain ⟨rest, hteams⟩ : ∃ rest, input.Source.Teams = team :: rest := by
      cases ht : input.Source.Teams with
      | nil => simp [ht] at hteam
      | cons t rest =>
        simp [ht] at hteam
        exact ⟨rest, by rw [hteam]⟩
    have hs : scheduled order ([] : List Pipeline) = [] := by
      simp [scheduled]
    unfold InCommand.Run
    simp [hmk, hteams, hlist, hs, runGoroutines, drain, writeAll]

/-- Witness for C6: the empty listing gives the input version, empty metadata
and no write. -/
theorem read_success_passes_version_through_witness :
    (sampleInCommand.Run (listedWorld [] [] []) [] sampleInRequest).result
        = .returned ⟨⟨"v1"⟩, []⟩ none ∧
    (sampleInCommand.Run (listedWorld [] [] []) [] sampleInRequest).writes = [] :=
  (read_success_passes_version_through sampleInCommand (listedWorld [] [] []) []
    sampleInRequest).2 ⟨"main"⟩ (by rfl) (by rfl) (by rfl)

/-- C9: once directory creation and the listing have succeeded, under every
completion order and every pattern of fetch failures `InCommand.Run` issues
exactly one `PipelineConfig` call per listed index, each with the name of the
first team and the name of that pipeline; at most as many errors as there are
pipelines are enqueued, no send on the error channel blocks, and the run
returns. -/
theorem read_fetches_every_pipeline_once (c : InCommand) (w : InWorld)
    (order : List Nat) (input : InRequest) (team : Team) (ps : List Pipeline)
    (hmk : w.mkdirAll c.downloadDir = none)
    (hteam : input.Source.Teams.head? = some team)
    (hlist : w.pipelines team.Name = .ok ps)
    (hord : IsSchedule order ps.length) :
    (c.Run w order input).calls
        = order.map (fun i => ⟨i, team.Name, (ps.getD i ⟨""⟩).Name⟩) ∧
    (c.Run w order input).calls.length = ps.length ∧
    ((c.Run w order input).calls.map ConfigCall.index).Perm (List.range ps.length) ∧
    (∀ i (hi : i < ps.length),
      (c.Run w order input).calls.count ⟨i, team.Name, ps[i].Name⟩ = 1) ∧
    (c.Run w order input).errors.length ≤ ps.length ∧
    (c.Run w order input).result ≠ .deadlock ∧
    (∃ resp err, (c.Run w order input).result = .returned resp err) := by
  have hcalls : (c.Run w order input).calls = callsOf team.Name ps order := by
    rw [Run_eq c w order input team ps hmk hteam hlist hord]
    cases firstError w team.Name ps order with
    | some err => rfl
    | none =>
      cases (writeAll c w 0 ((List.range ps.length).map (slotOf w team.Name ps))).err <;> rfl
  have herrs : (c.Run w order input).errors = errsOf w team.Name ps order := by
    rw [Run_eq c w order input team ps hmk hteam hlist hord]
    cases firstError w team.Name ps order with
    | some err => rfl
    | none =>
      cases (writeAll c w 0 ((List.range ps.length).map (slotOf w team.Name ps))).err <;> rfl
  have hres : ∃ resp err, (c.Run w order input).result = .returned resp err := by
    rw [Run_eq c w order input team ps hmk hteam hlist hord]
    cases firstError w team.Name ps order with
    | some err => exact ⟨_, _, rfl⟩
    | none =>
      cases (writeAll c w 0 ((List.range ps.length).map (slotOf w team.Name ps))).err
      · exact ⟨_, _, rfl⟩
      · exact ⟨_, _, rfl⟩
  have hlen : order.length = ps.length := by
    have := List.Perm.length_eq hord
    simpa using this
  have hnd : order.Nodup := (List.Perm.nodup_iff hord).mpr (List.nodup_range _)
  refine ⟨hcalls, ?_, ?_, ?_, ?_, ?_, hres⟩
  · rw [hcalls]; simp [callsOf, hlen]
  · rw [hcalls]
    have : (callsOf team.Name ps order).map ConfigCall.index = order := by
      simp [callsOf, Function.comp_def]
    rw [this]; exact hord
  · intro i hi
    rw [hcalls]
    have hinj : Function.Injective
        (fun j => (⟨j, team.Name, (ps.getD j ⟨""⟩).Name⟩ : ConfigCall)) := by
      intro a b hab
      simpa using (congrArg ConfigCall.index hab)
    have hcall : (⟨i, team.Name, ps[i].Name⟩ : ConfigCall)
        = (fun j => (⟨j, team.Name, (ps.getD j ⟨""⟩).Name⟩ : ConfigCall)) i := by
      simp [List.getD_eq_getElem?_getD, List.getElem?_eq_getElem hi]
    rw [hcall]
    unfold callsOf
    rw [List.count_map_of_injective order _ hinj]
    exact List.count_eq_one_of_mem hnd (lt_mem_schedule order _ hord i hi)
  · rw [herrs]
    exact le_trans (errsOf_length_le w team.Name ps order) (le_of_eq hlen)
  · obtain ⟨resp, err, h⟩ := hres
    rw [h]; simp

/-- Witness for C9: with names a, b, c where the fetches for a and b fail, the
three fetches are all issued, in completion order. -/
theorem read_fetches_every_pipeline_once_witness :
    (sampleInCommand.Run
        (listedWorld ["a", "b", "c"]
          [("", some ⟨"a failed"⟩), ("", some ⟨"b failed"⟩), ("Z", none)] [])
        [1, 2, 0] sampleInRequest).calls
      = [⟨1, "main", "b"⟩, ⟨2, "main", "c"⟩, ⟨0, "main", "a"⟩] :=
  (read_fetches_every_pipeline_once sampleInCommand
    (listedWorld ["a", "b", "c"]
      [("", some ⟨"a failed"⟩), ("", some ⟨"b failed"⟩), ("Z", none)] [])
    [1, 2, 0] sampleInRequest ⟨"main"⟩ [⟨"a"⟩, ⟨"b"⟩, ⟨"c"⟩]
    (by rfl) (by rfl) (by rfl) (by decide)).1

/-! ## Storage -/

theorem applyWrites_cons (fs : Storage) (e : WriteEvent) (log : List WriteEvent) :
    applyWrites fs (e :: log) = applyWrites (applyWrite fs e) log := by
  simp [applyWrites]

theorem applyWrites_append (fs : Storage) (l₁ l₂ : List WriteEvent) :
    applyWrites fs (l₁ ++ l₂) = applyWrites (applyWrites fs l₁) l₂ := by
  simp [applyWrites, List.foldl_append]

theorem applyWrites_other (log : List WriteEvent) :
    ∀ (fs : Storage) (q : String), (∀ e ∈ log, e.path ≠ q) → applyWrites fs log q = fs q := by
  induction log with
  | nil => intro fs q _; simp [applyWrites]
  | cons e rest ih =>
    intro fs q h
    rw [applyWrites_cons, ih _ q (fun e1 h1 => h e1 (by simp [h1]))]
    have hne : ¬ q = e.path := fun hq => h e (by simp) hq.symm
    simp [applyWrite, hne]

/-- Last writer wins: the content under the path of write `j` is the content of
write `j` when no later write goes to the same path. -/
theorem applyWrites_last (log : List WriteEvent) :
    ∀ (fs : Storage) (j : Nat) (hj : j < log.length),
      (∀ k (hk : k < log.length), j < k → log[k].path ≠ log[j].path) →
      applyWrites fs log log[j].path = some log[j].contents := by
  induction log with
  | nil => intro fs j hj; simp at hj
  | cons e rest ih =>
    intro fs j hj hlater
    rw [applyWrites_cons]
    cases j with
    | zero =>
      simp only [List.getElem_cons_zero]
      rw [applyWrites_other rest]
      · simp [applyWrite]
      · intro e1 h1
        obtain ⟨k, hk, hke⟩ := List.getElem_of_mem h1
        have := hlater (k + 1) (by simp; omega) (by omega)
        simpa [hke] using this
    | succ j =>
      simp only [List.getElem_cons_succ]
      apply ih _ j (by simpa using hj)
      intro k hk hjk
      have := hlater (k + 1) (by simp; omega) (by omega)
      simpa using this

/-! ## File paths of names without a separator -/

theorem splitSlash_ne_nil (l : List Char) : splitSlash l ≠ [] := by
  induction l with
  | nil => simp [splitSlash]
  | cons c cs ih =>
    unfold splitSlash
    by_cases hc : c = '/'
    · simp [hc]
    · simp only [hc, if_false]
      cases h : splitSlash cs with
      | nil => simp
      | cons x xs => simp

theorem splitSlash_of_not_mem (f : List Char) (h : '/' ∉ f) : splitSlash f = [f] := by
  induction f with
  | nil => simp [splitSlash]
  | cons c cs ih =>
    have hc : c ≠ '/' := fun hc => h (by simp [hc])
    have hcs : '/' ∉ cs := fun hcs => h (by simp [hcs])
    unfold splitSlash
    simp [hc, ih hcs]

theorem splitSlash_append (a b : List Char) :
    splitSlash (a ++ '/' :: b) = splitSlash a ++ splitSlash b := by
  induction a with
  | nil => simp [splitSlash]
  | cons c cs ih =>
    by_cases hc : c = '/'
    · subst hc
      simp [splitSlash, ih]
    · cases h : splitSlash cs with
      | nil => exact absurd h (splitSlash_ne_nil cs)
      | cons x xs =>
        rw [h] at ih
        simp [splitSlash, hc, ih, h]

theorem cleanElem_real (rooted : Bool) (out : List (List Char)) (f : List Char)
    (h0 : f ≠ []) (h1 : f ≠ ['.']) (h2 : f ≠ ['.', '.']) :
    cleanElem rooted out f = f :: out := by
  simp [cleanElem, h0, h1, h2]

theorem intercalate_append_singleton (sep : List Char) (S : List (List Char)) (f : List Char) :
    List.intercalate sep (S ++ [f]) = (S.map (· ++ sep)).flatten ++ f := by
  simp only [List.intercalate]
  induction S with
  | nil => simp [List.intersperse]
  | cons x rest ih =>
    obtain ⟨z, zs, hz⟩ : ∃ z zs, rest ++ [f] = z :: zs := by
      cases rest with
      | nil => exact ⟨f, [], rfl⟩
      | cons y ys => exact ⟨y, ys ++ [f], rfl⟩
    rw [hz] at ih
    rw [List.cons_append, hz]
    simp only [List.intersperse, List.flatten_cons, ih, List.map_cons, List.append_assoc]

/-- The cleaned path of a file whose name has no separator: a part that depends
on the directory only, followed by the file name. -/
theorem filepathJoin_yml_data (dir : String) :
    ∃ X : List Char, ∀ name : String, '/' ∉ name.data →
      (filepathJoin dir (name ++ ".yml")).data = X ++ (name.data ++ ".yml".data) := by
  have hreal : ∀ name : String, '/' ∉ name.data →
      '/' ∉ (name.data ++ ".yml".data) ∧ (name.data ++ ".yml".data) ≠ [] ∧
      (name.data ++ ".yml".data) ≠ ['.'] ∧ (name.data ++ ".yml".data) ≠ ['.', '.'] := by
    intro name hn
    refine ⟨?_, ?_, ?_, ?_⟩
    · intro h
      rcases List.mem_append.mp h with h | h
      · exact hn h
      · revert h; decide
    · simp
    · intro h
      have := congrArg List.length h
      simp at this
    · intro h
      have := congrArg List.length h
      simp at this
  cases hd : dir.data with
  | nil =>
    have hdir : dir = "" := String.ext hd
    refine ⟨[], ?_⟩
    intro name hn
    obtain ⟨hs, h0, h1, h2⟩ := hreal name hn
    have hfile : name ++ ".yml" ≠ "" := by
      intro h
      have := congrArg String.data h
      simp [String.data_append] at this
    obtain ⟨c, cs, hcs⟩ : ∃ c cs, name.data ++ ".yml".data = c :: cs := by
      cases h : name.data ++ ".yml".data with
      | nil => exact absurd h h0
      | cons c cs => exact ⟨c, cs, rfl⟩
    have hc : c ≠ '/' := by
      intro h
      apply hs
      rw [hcs, h]; simp
    have hdata : (name ++ ".yml").data = c :: cs := by
      rw [String.data_append]; exact hcs
    have hsplit : splitSlash (c :: cs) = [c :: cs] := by
      rw [← hcs]; exact splitSlash_of_not_mem _ hs
    have hce : cleanElem false [] (c :: cs) = [c :: cs] := by
      rw [← hcs]; exact cleanElem_real false [] _ h0 h1 h2
    simp only [filepathJoin, hdir, ne_eq, not_true_eq_false, if_false, hfile,
      not_false_eq_true, if_true, List.nil_append]
    unfold filepathClean
    simp only [hdata, hsplit, hc, decide_False, List.foldl_cons, List.foldl_nil, hce,
      List.reverse_cons, List.reverse_nil, List.nil_append]
    simp [List.intercalate, hcs]
  | cons c d =>
    have hdir : dir ≠ "" := by
      intro h
      rw [h] at hd
      simp at hd
    refine ⟨(if c = '/' then ['/'] else []) ++
      ((((splitSlash (c :: d)).foldl (cleanElem (decide (c = '/'))) []).reverse).map
        (· ++ ['/'])).flatten, ?_⟩
    intro name hn
    obtain ⟨hs, h0, h1, h2⟩ := hreal name hn
    have hdata : (dir ++ "/" ++ (name ++ ".yml")).data
        = c :: (d ++ '/' :: (name.data ++ ".yml".data)) := by
      simp [String.data_append, hd]
    have hsplit : splitSlash (c :: (d ++ '/' :: (name.data ++ ".yml".data)))
        = splitSlash (c :: d) ++ [name.data ++ ".yml".data] := by
      have := splitSlash_append (c :: d) (name.data ++ ".yml".data)
      rw [splitSlash_of_not_mem _ hs] at this
      simpa using this
    simp only [filepathJoin, hdir, ne_eq, not_false_eq_true, if_true]
    unfold filepathClean
    simp only [hdata, hsplit, List.foldl_append, List.foldl_cons, List.foldl_nil,
      cleanElem_real _ _ _ h0 h1 h2, List.reverse_cons, intercalate_append_singleton]
    by_cases hc : c = '/'
    · simp [hc]
    · simp [hc, h0]

/-- Names without a separator have distinct file paths. -/
theorem filepathJoin_yml_injective (dir : String) (n₁ n₂ : String)
    (h₁ : '/' ∉ n₁.data) (h₂ : '/' ∉ n₂.data)
    (h : filepathJoin dir (n₁ ++ ".yml") = filepathJoin dir (n₂ ++ ".yml")) : n₁ = n₂ := by
  obtain ⟨X, hX⟩ := filepathJoin_yml_data dir
  have e := congrArg String.data h
  rw [hX n₁ h₁, hX n₂ h₂] at e
  have e2 := List.append_cancel_left e
  have e3 := List.append_cancel_right e2
  exact String.ext e3

/-! ## Read direction: persistence -/

/-- C7, as amended: if every fetch and write succeeds and no index after `j`
has the file path `filepath.Join(downloadDir, name_j + ".yml")` of index `j`,
then after the run storage holds under that path the content fetched for index
`j`.  That is so in particular when no listed name contains the separator `/`
and the name of index `j` occurs at no later index.  In both cases the run
performed one write per listed entry. -/
theorem read_last_write_to_path_wins (c : InCommand) (w : InWorld)
    (order : List Nat) (input : InRequest) (team : Team) (ps : List Pipeline)
    (fs : Storage) (j : Nat)
    (hmk : w.mkdirAll c.downloadDir = none)
    (hteam : input.Source.Teams.head? = some team)
    (hlist : w.pipelines team.Name = .ok ps)
    (hord : IsSchedule order ps.length)
    (hfetch : ∀ i, i < ps.length → (fetchOf w team.Name ps i).2 = none)
    (hwrite : ∀ i, i < ps.length →
      w.writeFile i (pathOf c ps i) (fetchOf w team.Name ps i).1 = none)
    (hj : j < ps.length) :
    ((∀ k, k < ps.length → j < k → pathOf c ps k ≠ pathOf c ps j) →
      applyWrites fs (c.Run w order input).writes (pathOf c ps j)
        = some (fetchOf w team.Name ps j).1) ∧
    ((∀ k, k < ps.length → '/' ∉ (ps.getD k ⟨""⟩).Name.data) →
      (∀ k, k < ps.length → j < k → (ps.getD k ⟨""⟩).Name ≠ (ps.getD j ⟨""⟩).Name) →
      applyWrites fs (c.Run w order input).writes
          (filepathJoin c.downloadDir ((ps.getD j ⟨""⟩).Name ++ ".yml"))
        = some (fetchOf w team.Name ps j).1) ∧
    (c.Run w order input).writes.length = ps.length := by
  rw [Run_all_ok c w order input team ps hmk hteam hlist hord hfetch hwrite]
  have hlen : ((List.range ps.length).map (writeOf c w team.Name ps)).length = ps.length := by
    simp
  have hjl : j < ((List.range ps.length).map (writeOf c w team.Name ps)).length := by
    rw [hlen]; exact hj
  have hget : ∀ k (hk : k < ((List.range ps.length).map (writeOf c w team.Name ps)).length),
      ((List.range ps.length).map (writeOf c w team.Name ps))[k]
        = writeOf c w team.Name ps k := by
    intro k hk; simp
  have key : (∀ k, k < ps.length → j < k → pathOf c ps k ≠ pathOf c ps j) →
      applyWrites fs ((List.range ps.length).map (writeOf c w team.Name ps)) (pathOf c ps j)
        = some (fetchOf w team.Name ps j).1 := by
    intro hlast
    have h := applyWrites_last ((List.range ps.length).map (writeOf c w team.Name ps)) fs j
      hjl
      (by
        intro k hk hjk
        rw [hget, hget]
        exact hlast k (by rw [hlen] at hk; exact hk) hjk)
    rw [hget] at h
    exact h
  refine ⟨key, ?_, hlen⟩
  intro hsep hname
  apply key
  intro k hk hjk hpath
  exact hname k hk hjk
    (filepathJoin_yml_injective c.downloadDir _ _ (hsep k hk) (hsep j hj) hpath)

/-- Witness for C7 as amended: in the listing a, a, ./a the three writes go to
`d/a.yml` and the content of the last one, index 2, stays; in the listing a, a,
b the content under `d/a.yml` is the one fetched for index 1. -/
theorem read_last_write_to_path_wins_witness :
    applyWrites (fun _ => none)
        (sampleInCommand.Run aliasWorld [1, 2, 0] sampleInRequest).writes "d/a.yml"
      = some "3" ∧
    applyWrites (fun _ => none)
        (sampleInCommand.Run
          (listedWorld ["a", "a", "b"] [("1", none), ("2", none), ("3", none)] [])
          [1, 2, 0] sampleInRequest).writes "d/a.yml"
      = some "2" :=
  ⟨(read_last_write_to_path_wins sampleInCommand aliasWorld [1, 2, 0] sampleInRequest
      ⟨"main"⟩ [⟨"a"⟩, ⟨"a"⟩, ⟨"./a"⟩] (fun _ => none) 2
      (by rfl) (by rfl) (by rfl) (by decide) (by decide) (by decide) (by decide)).1
      (by decide),
    (read_last_write_to_path_wins sampleInCommand
      (listedWorld ["a", "a", "b"] [("1", none), ("2", none), ("3", none)] [])
      [1, 2, 0] sampleInRequest
      ⟨"main"⟩ [⟨"a"⟩, ⟨"a"⟩, ⟨"b"⟩] (fun _ => none) 1
      (by rfl) (by rfl) (by rfl) (by decide) (by decide) (by decide) (by decide)).2.1
      (by decide) (by decide)⟩

/-- Counterexample to C7 as stated: the listing is a, a, ./a with contents 1, 2,
3; the name a is at indices 0 and 1 and at no later index, every fetch and
write succeeds, and yet the content under `filepath.Join("d", "a.yml")` is 3,
the content fetched for index 2, not the content 2 fetched for index 1. -/
theorem read_duplicate_name_not_last_writer :
    aliasWorld.pipelines "main" = .ok [⟨"a"⟩, ⟨"a"⟩, ⟨"./a"⟩] ∧
    (∀ k, k < 3 → 1 < k → (([⟨"a"⟩, ⟨"a"⟩, ⟨"./a"⟩] : List Pipeline).getD k ⟨""⟩).Name ≠ "a") ∧
    (sampleInCommand.Run aliasWorld [0, 1, 2] sampleInRequest).result
      = .returned ⟨⟨"v1"⟩, []⟩ none ∧
    (sampleInCommand.Run aliasWorld [0, 1, 2] sampleInRequest).writes
      = [⟨"d/a.yml", "1", true⟩, ⟨"d/a.yml", "2", true⟩, ⟨"d/a.yml", "3", true⟩] ∧
    (aliasWorld.pipelineConfig 1 "main" "a").1 = "2" ∧
    applyWrites (fun _ => none)
        (sampleInCommand.Run aliasWorld [0, 1, 2] sampleInRequest).writes
        (filepathJoin sampleInCommand.downloadDir ("a" ++ ".yml"))
      = some "3" ∧
    applyWrites (fun _ => none)
        (sampleInCommand.Run aliasWorld [0, 1, 2] sampleInRequest).writes
        (filepathJoin sampleInCommand.downloadDir ("a" ++ ".yml"))
      ≠ some (aliasWorld.pipelineConfig 1 "main" "a").1 := by
  refine ⟨rfl, by decide, by decide, by decide, rfl, by decide, by decide⟩

/-- When every fetch succeeds and the write for index `k` is the first write
that fails, the run returns that error; the writes made are those below `k`
followed by what the failing call left, and the calls made are those for the
indices up to `k`. -/
theorem Run_write_fail (c : InCommand) (w : InWorld) (order : List Nat) (input : InRequest)
    (team : Team) (ps : List Pipeline) (k : Nat) (err : Err)
    (hmk : w.mkdirAll c.downloadDir = none)
    (hteam : input.Source.Teams.head? = some team)
    (hlist : w.pipelines team.Name = .ok ps)
    (hord : IsSchedule order ps.length)
    (hfetch : ∀ i, i < ps.length → (fetchOf w team.Name ps i).2 = none)
    (hk : k < ps.length)
    (hbefore : ∀ i, i < k →
      w.writeFile i (pathOf c ps i) (fetchOf w team.Name ps i).1 = none)
    (hfail : w.writeFile k (pathOf c ps k) (fetchOf w team.Name ps k).1 = some err) :
    c.Run w order input =
      ⟨.returned emptyInResponse (some err), callsOf team.Name ps order, [],
        (List.range k).map (writeOf c w team.Name ps)
          ++ failedWrite (pathOf c ps k)
              (w.writeLeft k (pathOf c ps k) (fetchOf w team.Name ps k).1),
        (List.range (k + 1)).map (attemptOf c w team.Name ps)⟩ := by
  have hfe : firstError w team.Name ps order = none :=
    firstError_none w team.Name ps order
      (fun i hi => hfetch i (mem_schedule_lt order _ hord i hi))
  have herrs : errsOf w team.Name ps order = [] := by
    unfold errsOf
    rw [List.filterMap_eq_nil_iff]
    intro i hi
    simp [hfetch i (mem_schedule_lt order _ hord i hi)]
  have hslot : ∀ j p, ((List.range ps.length).map (slotOf w team.Name ps))[j]? = some p →
      j < ps.length ∧ p = slotOf w team.Name ps j := by
    intro j p hp
    rw [List.getElem?_map] at hp
    have hj : j < ps.length := by
      by_contra hge
      have : (List.range ps.length)[j]? = none := by
        apply List.getElem?_eq_none
        simpa using hge
      simp [this] at hp
    have hrange : (List.range ps.length)[j]? = some j := by
      rw [List.getElem?_eq_getElem (by simpa using hj)]
      simp
    rw [hrange] at hp
    exact ⟨hj, by simpa using hp.symm⟩
  have hkslot : ((List.range ps.length).map (slotOf w team.Name ps))[k]?
      = some (slotOf w team.Name ps k) := by
    rw [List.getElem?_map, List.getElem?_eq_getElem (by simpa using hk)]
    simp
  have hw := writeAll_fail c w ((List.range ps.length).map (slotOf w team.Name ps)) 0 k
    (slotOf w team.Name ps k) err
    (by
      intro j q hjk hq
      obtain ⟨hj, hqe⟩ := hslot j q hq
      subst hqe
      simpa [slotOf, pathOf] using hbefore j hjk)
    hkslot
    (by simpa [slotOf, pathOf] using hfail)
  have htake : (((List.range ps.length).map (slotOf w team.Name ps)).take k).map (writtenOf c)
      = (List.range k).map (writeOf c w team.Name ps) := by
    rw [← List.map_take, List.take_range, Nat.min_eq_left (le_of_lt hk), List.map_map]
    rfl
  have htake2 : (((List.range ps.length).map (slotOf w team.Name ps)).take k).map
        (attemptedOf c) ++ [attemptedOf c (slotOf w team.Name ps k)]
      = (List.range (k + 1)).map (attemptOf c w team.Name ps) := by
    rw [← List.map_take, List.take_range, Nat.min_eq_left (le_of_lt hk), List.map_map,
      List.range_succ, List.map_append]
    rfl
  rw [Run_eq c w order input team ps hmk hteam hlist hord, hfe]
  simp only [hw, htake, htake2, herrs, Nat.zero_add]
  rfl

/-- C8, as amended: if every fetch succeeds and the write for index `k` is the
first write that fails, `InCommand.Run` returns that write's error with the
empty response; `ioutil.WriteFile` has been called for the indices up to `k`, in
index order, and for no index beyond `k`; and nothing is rolled back: every
file other than the target of the failing write holds what the writes below `k`
left there, so the content written for an index `i` below `k` remains under its
path unless a later write, the failing one included, goes to the same path.
The target of the failing write is left as the failing call left it; when that
call did not touch it, storage is exactly what the writes below `k` left. -/
theorem read_write_failure_keeps_earlier_writes (c : InCommand) (w : InWorld)
    (order : List Nat) (input : InRequest) (team : Team) (ps : List Pipeline)
    (k : Nat) (err : Err)
    (hmk : w.mkdirAll c.downloadDir = none)
    (hteam : input.Source.Teams.head? = some team)
    (hlist : w.pipelines team.Name = .ok ps)
    (hord : IsSchedule order ps.length)
    (hfetch : ∀ i, i < ps.length → (fetchOf w team.Name ps i).2 = none)
    (hk : k < ps.length)
    (hbefore : ∀ i, i < k →
      w.writeFile i (pathOf c ps i) (fetchOf w team.Name ps i).1 = none)
    (hfail : w.writeFile k (pathOf c ps k) (fetchOf w team.Name ps k).1 = some err) :
    (c.Run w order input).result = .returned emptyInResponse (some err) ∧
    (c.Run w order input).attempts
      = (List.range (k + 1)).map
          (fun i => ⟨pathOf c ps i, (fetchOf w team.Name ps i).1⟩) ∧
    (c.Run w order input).writes
      = (List.range k).map (fun i => ⟨pathOf c ps i, (fetchOf w team.Name ps i).1, true⟩)
          ++ failedWrite (pathOf c ps k)
              (w.writeLeft k (pathOf c ps k) (fetchOf w team.Name ps k).1) ∧
    (∀ (fs : Storage) (q : String), q ≠ pathOf c ps k →
      applyWrites fs (c.Run w order input).writes q
        = applyWrites fs
            ((List.range k).map (fun i => ⟨pathOf c ps i, (fetchOf w team.Name ps i).1, true⟩))
            q) ∧
    (∀ (fs : Storage) (i : Nat), i < k →
      (∀ m, m ≤ k → i < m → pathOf c ps m ≠ pathOf c ps i) →
      applyWrites fs (c.Run w order input).writes (pathOf c ps i)
        = some (fetchOf w team.Name ps i).1) ∧
    (w.writeLeft k (pathOf c ps k) (fetchOf w team.Name ps k).1 = none →
      ∀ fs : Storage, applyWrites fs (c.Run w order input).writes
        = applyWrites fs
            ((List.range k).map
              (fun i => ⟨pathOf c ps i, (fetchOf w team.Name ps i).1, true⟩))) := by
  rw [Run_write_fail c w order input team ps k err hmk hteam hlist hord hfetch hk hbefore
    hfail]
  have hother : ∀ (fs : Storage) (q : String), q ≠ pathOf c ps k →
      applyWrites fs ((List.range k).map (writeOf c w team.Name ps)
          ++ failedWrite (pathOf c ps k)
              (w.writeLeft k (pathOf c ps k) (fetchOf w team.Name ps k).1)) q
        = applyWrites fs ((List.range k).map (writeOf c w team.Name ps)) q := by
    intro fs q hq
    rw [applyWrites_append]
    apply applyWrites_other
    intro e he
    cases hleft : w.writeLeft k (pathOf c ps k) (fetchOf w team.Name ps k).1 with
    | none => simp [hleft, failedWrite] at he
    | some left =>
      simp [hleft, failedWrite] at he
      rw [he]
      exact fun h => hq h.symm
  refine ⟨rfl, rfl, rfl, hother, ?_, ?_⟩
  · intro fs i hi hlater
    have hne : pathOf c ps i ≠ pathOf c ps k := fun h => hlater k (le_refl k) hi h.symm
    have hstep := hother fs (pathOf c ps i) hne
    have hlen : ((List.range k).map (writeOf c w team.Name ps)).length = k := by simp
    have hget : ∀ m (hm : m < ((List.range k).map (writeOf c w team.Name ps)).length),
        ((List.range k).map (writeOf c w team.Name ps))[m] = writeOf c w team.Name ps m := by
      intro m hm; simp
    have hlast := applyWrites_last ((List.range k).map (writeOf c w team.Name ps)) fs i
      (by rw [hlen]; exact hi)
      (by
        intro m hm him
        rw [hget, hget]
        exact hlater m (by rw [hlen] at hm; omega) him)
    rw [hget] at hlast
    exact hstep.trans hlast
  · intro hleft fs
    simp [hleft, failedWrite]
    rfl

/-- Witness for C8 as amended: names a, b, c, all fetched, the write for b
fails: the run returns that error, `ioutil.WriteFile` was called for a and b
only, and `d/a.yml` still holds X. -/
theorem read_write_failure_keeps_earlier_writes_witness :
    (sampleInCommand.Run
        (listedWorld ["a", "b", "c"] [("X", none), ("Y", none), ("Z", none)]
          [none, some ⟨"disk full"⟩])
        [2, 1, 0] sampleInRequest).result
      = .returned emptyInResponse (some ⟨"disk full"⟩) ∧
    (sampleInCommand.Run
        (listedWorld ["a", "b", "c"] [("X", none), ("Y", none), ("Z", none)]
          [none, some ⟨"disk full"⟩])
        [2, 1, 0] sampleInRequest).attempts
      = [⟨"d/a.yml", "X"⟩, ⟨"d/b.yml", "Y"⟩] ∧
    applyWrites (fun _ => none)
        (sampleInCommand.Run
          (listedWorld ["a", "b", "c"] [("X", none), ("Y", none), ("Z", none)]
            [none, some ⟨"disk full"⟩])
          [2, 1, 0] sampleInRequest).writes "d/a.yml"
      = some "X" := by
  have h := read_write_failure_keeps_earlier_writes sampleInCommand
    (listedWorld ["a", "b", "c"] [("X", none), ("Y", none), ("Z", none)]
      [none, some ⟨"disk full"⟩])
    [2, 1, 0] sampleInRequest ⟨"main"⟩ [⟨"a"⟩, ⟨"b"⟩, ⟨"c"⟩] 1 ⟨"disk full"⟩
    (by rfl) (by rfl) (by rfl) (by decide) (by decide) (by decide) (by decide) (by rfl)
  refine ⟨h.1, ?_, h.2.2.2.2.1 (fun _ => none) 0 (by decide) (by decide)⟩
  rw [h.2.1]
  decide

/-- Counterexample to C8 as stated: the listing is a, a with contents X, Y, both
fetches succeed, the write for index 0 succeeds and puts X under `d/a.yml`, and
the write for index 1, to the same path, is the first that fails, after the
file has been truncated.  The run returns that error, but the content written
for index 0 does not remain in storage. -/
theorem read_failed_write_destroys_earlier_write :
    (listedWorld ["a", "a"] [("X", none), ("Y", none)] [none, some ⟨"disk full"⟩]).writeFile
        0 "d/a.yml" "X" = none ∧
    (listedWorld ["a", "a"] [("X", none), ("Y", none)] [none, some ⟨"disk full"⟩]).writeFile
        1 "d/a.yml" "Y" = some ⟨"disk full"⟩ ∧
    (sampleInCommand.Run
        (listedWorld ["a", "a"] [("X", none), ("Y", none)] [none, some ⟨"disk full"⟩])
        [0, 1] sampleInRequest).result
      = .returned emptyInResponse (some ⟨"disk full"⟩) ∧
    (sampleInCommand.Run
        (listedWorld ["a", "a"] [("X", none), ("Y", none)] [none, some ⟨"disk full"⟩])
        [0, 1] sampleInRequest).attempts
      = [⟨"d/a.yml", "X"⟩, ⟨"d/a.yml", "Y"⟩] ∧
    applyWrites (fun _ => none) [⟨"d/a.yml", "X", true⟩] "d/a.yml" = some "X" ∧
    applyWrites (fun _ => none)
        (sampleInCommand.Run
          (listedWorld ["a", "a"] [("X", none), ("Y", none)] [none, some ⟨"disk full"⟩])
          [0, 1] sampleInRequest).writes "d/a.yml"
      = some "" ∧
    applyWrites (fun _ => none)
        (sampleInCommand.Run
          (listedWorld ["a", "a"] [("X", none), ("Y", none)] [none, some ⟨"disk full"⟩])
          [0, 1] sampleInRequest).writes "d/a.yml"
      ≠ some "X" := by
  refine ⟨rfl, rfl, by decide, by decide, by decide, by decide, by decide⟩

/-! ## Write direction: lemmas on the checksum -/

theorem bytesOf_append (s t : String) : bytesOf (s ++ t) = bytesOf s ++ bytesOf t := by
  simp [bytesOf, String.data_append, List.flatMap_append]

theorem bytesOf_join (cs : List String) :
    bytesOf (String.join cs) = (cs.map bytesOf).flatten := by
  induction cs with
  | nil => simp [bytesOf, String.join]
  | cons x rest ih =>
    have hx : String.join (x :: rest) = x ++ String.join rest := by
      apply String.ext
      simp [String.data_join, String.data_append]
    rw [hx, bytesOf_append, ih]
    simp

theorem MD5.leBytes_length (k x : Nat) : (MD5.leBytes k x).length = k := by
  induction k generalizing x with
  | zero => simp [MD5.leBytes]
  | succ k ih => simp [MD5.leBytes, ih]

theorem MD5.sum_length (msg : List Nat) : (MD5.sum msg).length = 16 := by
  simp [MD5.sum, MD5.leBytes_length]

theorem MD5.leBytes_lt (k x : Nat) : ∀ b ∈ MD5.leBytes k x, b < 256 := by
  induction k generalizing x with
  | zero => simp [MD5.leBytes]
  | succ k ih =>
    intro b hb
    simp only [MD5.leBytes, List.mem_cons] at hb
    rcases hb with h | h
    · rw [h]; exact Nat.mod_lt _ (by decide)
    · exact ih _ b h

theorem MD5.sum_lt (msg : List Nat) : ∀ b ∈ MD5.sum msg, b < 256 := by
  intro b hb
  simp only [MD5.sum, List.mem_append] at hb
  rcases hb with ((h | h) | h) | h <;> exact MD5.leBytes_lt _ _ b h

theorem hexLower_length (bs : List Nat) : (hexLower bs).length = 2 * bs.length := by
  show (bs.flatMap (fun b => [hexDigit (b / 16), hexDigit (b % 16)])).length = 2 * bs.length
  induction bs with
  | nil => simp
  | cons b rest ih =>
    simp only [List.flatMap_cons, List.length_append, ih, List.length_cons, List.length_nil]
    omega

theorem hexDigit_mem (n : Nat) : hexDigit n ∈ "0123456789abcdef".data := by
  unfold hexDigit
  by_cases h : n < 16
  · interval_cases n <;> decide
  · have : "0123456789abcdef".data.getD n '0' = '0' := by
      rw [List.getD_eq_default]
      simp only [not_lt] at h
      exact h
    rw [this]; decide

theorem hexLower_mem (bs : List Nat) :
    ∀ ch ∈ (hexLower bs).data, ch ∈ "0123456789abcdef".data := by
  intro ch hch
  have hch2 : ch ∈ bs.flatMap (fun b => [hexDigit (b / 16), hexDigit (b % 16)]) := hch
  rw [List.mem_flatMap] at hch2
  obtain ⟨b, _, hb⟩ := hch2
  simp only [List.mem_cons, List.mem_singleton, List.not_mem_nil, or_false] at hb
  rcases hb with h | h <;> rw [h] <;> exact hexDigit_mem _

theorem hexDigit_injective :
    ∀ m, m < 16 → ∀ n, n < 16 → hexDigit m = hexDigit n → m = n := by
  decide

theorem hexPair_injective (a b : Nat) (ha : a < 256) (hb : b < 256)
    (hhi : hexDigit (a / 16) = hexDigit (b / 16))
    (hlo : hexDigit (a % 16) = hexDigit (b % 16)) : a = b := by
  have h1 := hexDigit_injective (a / 16) (by omega) (b / 16) (by omega) hhi
  have h2 := hexDigit_injective (a % 16) (Nat.mod_lt _ (by decide)) (b % 16)
    (Nat.mod_lt _ (by decide)) hlo
  omega

/-- The rendering `%x` loses nothing: two byte sequences with the same
rendering are equal. -/
theorem hexLower_injective (bs₁ : List Nat) :
    ∀ (bs₂ : List Nat), (∀ b ∈ bs₁, b < 256) → (∀ b ∈ bs₂, b < 256) →
      hexLower bs₁ = hexLower bs₂ → bs₁ = bs₂ := by
  induction bs₁ with
  | nil =>
    intro bs₂ _ _ h
    cases bs₂ with
    | nil => rfl
    | cons b rest =>
      have := congrArg String.length h
      rw [hexLower_length, hexLower_length] at this
      simp at this
  | cons a rest ih =>
    intro bs₂ h₁ h₂ h
    cases bs₂ with
    | nil =>
      have := congrArg String.length h
      rw [hexLower_length, hexLower_length] at this
      simp at this
    | cons b rest₂ =>
      have hd := congrArg String.data h
      simp only [hexLower, List.flatMap_cons, List.cons_append, List.nil_append,
        List.cons.injEq] at hd
      obtain ⟨hhi, hlo, hrest⟩ := hd
      have hab : a = b := hexPair_injective a b (h₁ a (by simp)) (h₂ b (by simp)) hhi hlo
      have hr : hexLower rest = hexLower rest₂ := by
        apply String.ext
        exact hrest
      rw [hab, ih rest₂ (fun x hx => h₁ x (by simp [hx])) (fun x hx => h₂ x (by simp [hx])) hr]

/-- Two content sequences have the same checksum exactly when the MD5 digests
of their concatenations are equal. -/
theorem pipelinesChecksum_eq_iff (cs₁ cs₂ : List String) :
    pipelinesChecksum cs₁ = pipelinesChecksum cs₂ ↔
      MD5.sum (bytesOf (String.join cs₁)) = MD5.sum (bytesOf (String.join cs₂)) := by
  constructor
  · intro h
    exact hexLower_injective _ _ (MD5.sum_lt _) (MD5.sum_lt _) h
  · intro h
    simp only [pipelinesChecksum, h]

/-- When login, the manifest, every `SetPipeline`, the listing and the runner
succeed, the run returns the checksum of the contents the runner returned. -/
theorem Out_run_eq (c : OutCommand) (w : OutWorld) (input : OutRequest)
    (specs : List PipelineSpec) (ps : List Pipeline) (cs : List String)
    (hlogin : w.login input.Source.Target input.Source.Username input.Source.Password = none)
    (hload : loadPipelines c w input = .ok specs)
    (hset : setPipelines c w 0 specs = none)
    (hlist : w.pipelines = .ok ps)
    (hrun : w.runForAllPipelines (gpFunc w) ps = .ok cs) :
    c.Run w input = (⟨⟨pipelinesChecksum cs⟩, []⟩, none) := by
  unfold OutCommand.Run
  simp only [hlogin, hload, hset, hlist, hrun]

/-! ## Write direction: the claims -/

/-- C3: when login, the manifest, every `SetPipeline` and the listing succeed
and the pipeline runner returns the contents `cs` (in listing order),
`OutCommand.Run` returns a nil error, empty metadata, and as
`Version.PipelinesChecksum` the lowercase hexadecimal rendering, 32 digits
long, of MD5 of the bytes of the contents concatenated without separators. -/
theorem write_checksum_is_md5_of_concatenation (c : OutCommand) (w : OutWorld)
    (input : OutRequest) (specs : List PipelineSpec) (ps : List Pipeline) (cs : List String)
    (hlogin : w.login input.Source.Target input.Source.Username input.Source.Password = none)
    (hload : loadPipelines c w input = .ok specs)
    (hset : setPipelines c w 0 specs = none)
    (hlist : w.pipelines = .ok ps)
    (hrun : w.runForAllPipelines (gpFunc w) ps = .ok cs) :
    c.Run w input
      = (⟨⟨hexLower (MD5.sum (cs.map bytesOf).flatten)⟩, []⟩, none) ∧
    (c.Run w input).1.Version.PipelinesChecksum.length = 32 ∧
    (∀ ch ∈ (c.Run w input).1.Version.PipelinesChecksum.data,
      ch ∈ "0123456789abcdef".data) ∧
    (c.Run w input).1.Metadata = [] := by
  rw [Out_run_eq c w input specs ps cs hlogin hload hset hlist hrun]
  refine ⟨?_, ?_, ?_, rfl⟩
  · simp [pipelinesChecksum, bytesOf_join]
  · simp [pipelinesChecksum, hexLower_length, MD5.sum_length]
  · exact hexLower_mem _

/-- Witness for C3: the contents X, Y, Z give the MD5 of `XYZ`, and the empty
listing gives the MD5 of the empty string. -/
theorem write_checksum_is_md5_of_concatenation_witness :
    sampleOutCommand.Run (flyWorld [("a", "X", none), ("b", "Y", none), ("c", "Z", none)])
        sampleOutRequest
      = (⟨⟨"e65075d550f9b5bf9992fa1d71a131be"⟩, []⟩, none) ∧
    sampleOutCommand.Run (flyWorld []) sampleOutRequest
      = (⟨⟨"d41d8cd98f00b204e9800998ecf8427e"⟩, []⟩, none) := by
  have h1 := (write_checksum_is_md5_of_concatenation sampleOutCommand
    (flyWorld [("a", "X", none), ("b", "Y", none), ("c", "Z", none)]) sampleOutRequest
    [⟨"p", "p.yml", ["vars.yml"]⟩] [⟨"a"⟩, ⟨"b"⟩, ⟨"c"⟩] ["X", "Y", "Z"]
    (by rfl) (by rfl) (by rfl) (by rfl) (by rfl)).1
  have h2 := (write_checksum_is_md5_of_concatenation sampleOutCommand
    (flyWorld []) sampleOutRequest
    [⟨"p", "p.yml", ["vars.yml"]⟩] [] []
    (by rfl) (by rfl) (by rfl) (by rfl) (by rfl)).1
  rw [h1, h2]
  constructor <;> decide

/-- C10: the checksum depends on the fetched contents only through their
concatenation: two runs of `OutCommand.Run` that reach the checksum with
content sequences (of any lengths) whose concatenations are equal return the
same `PipelinesChecksum`. -/
theorem write_checksum_ignores_entity_boundaries
    (c₁ c₂ : OutCommand) (w₁ w₂ : OutWorld) (input₁ input₂ : OutRequest)
    (specs₁ specs₂ : List PipelineSpec) (ps₁ ps₂ : List Pipeline) (cs₁ cs₂ : List String)
    (hlogin₁ : w₁.login input₁.Source.Target input₁.Source.Username input₁.Source.Password
      = none)
    (hload₁ : loadPipelines c₁ w₁ input₁ = .ok specs₁)
    (hset₁ : setPipelines c₁ w₁ 0 specs₁ = none)
    (hlist₁ : w₁.pipelines = .ok ps₁)
    (hrun₁ : w₁.runForAllPipelines (gpFunc w₁) ps₁ = .ok cs₁)
    (hlogin₂ : w₂.login input₂.Source.Target input₂.Source.Username input₂.Source.Password
      = none)
    (hload₂ : loadPipelines c₂ w₂ input₂ = .ok specs₂)
    (hset₂ : setPipelines c₂ w₂ 0 specs₂ = none)
    (hlist₂ : w₂.pipelines = .ok ps₂)
    (hrun₂ : w₂.runForAllPipelines (gpFunc w₂) ps₂ = .ok cs₂)
    (hcat : String.join cs₁ = String.join cs₂) :
    (c₁.Run w₁ input₁).1.Version.PipelinesChecksum
      = (c₂.Run w₂ input₂).1.Version.PipelinesChecksum := by
  rw [Out_run_eq c₁ w₁ input₁ specs₁ ps₁ cs₁ hlogin₁ hload₁ hset₁ hlist₁ hrun₁,
    Out_run_eq c₂ w₂ input₂ specs₂ ps₂ cs₂ hlogin₂ hload₂ hset₂ hlist₂ hrun₂]
  simp only [pipelinesChecksum, hcat]

/-- Witness for C10: the contents `ab`, `c` and the contents `a`, `bc` give the
same checksum, and so do `a`, `bc` and the single content `abc`. -/
theorem write_checksum_ignores_entity_boundaries_witness :
    (sampleOutCommand.Run (flyWorld [("p", "ab", none), ("q", "c", none)])
        sampleOutRequest).1.Version.PipelinesChecksum
      = (sampleOutCommand.Run (flyWorld [("p", "a", none), ("q", "bc", none)])
        sampleOutRequest).1.Version.PipelinesChecksum ∧
    (sampleOutCommand.Run (flyWorld [("p", "a", none), ("q", "bc", none)])
        sampleOutRequest).1.Version.PipelinesChecksum
      = (sampleOutCommand.Run (flyWorld [("p", "abc", none)])
        sampleOutRequest).1.Version.PipelinesChecksum :=
  ⟨write_checksum_ignores_entity_boundaries sampleOutCommand sampleOutCommand
      (flyWorld [("p", "ab", none), ("q", "c", none)])
      (flyWorld [("p", "a", none), ("q", "bc", none)])
      sampleOutRequest sampleOutRequest
      [⟨"p", "p.yml", ["vars.yml"]⟩] [⟨"p", "p.yml", ["vars.yml"]⟩]
      [⟨"p"⟩, ⟨"q"⟩] [⟨"p"⟩, ⟨"q"⟩] ["ab", "c"] ["a", "bc"]
      (by rfl) (by rfl) (by rfl) (by rfl) (by rfl)
      (by rfl) (by rfl) (by rfl) (by rfl) (by rfl) (by decide),
    write_checksum_ignores_entity_boundaries sampleOutCommand sampleOutCommand
      (flyWorld [("p", "a", none), ("q", "bc", none)])
      (flyWorld [("p", "abc", none)])
      sampleOutRequest sampleOutRequest
      [⟨"p", "p.yml", ["vars.yml"]⟩] [⟨"p", "p.yml", ["vars.yml"]⟩]
      [⟨"p"⟩, ⟨"q"⟩] [⟨"p"⟩] ["a", "bc"] ["abc"]
      (by rfl) (by rfl) (by rfl) (by rfl) (by rfl)
      (by rfl) (by rfl) (by rfl) (by rfl) (by rfl) (by decide)⟩

/-- Counterexample to C4 as stated: the content sequences `a`, `aa` and `aa`,
`a` are permutations of each other in a different order, their contents are not
all identical, both runs succeed, and the two fingerprints are equal. -/
theorem write_permuted_contents_same_fingerprint :
    (["aa", "a"] : List String).Perm ["a", "aa"] ∧
    (["aa", "a"] : List String) ≠ ["a", "aa"] ∧
    ¬ (∀ x ∈ (["a", "aa"] : List String), ∀ y ∈ (["a", "aa"] : List String), x = y) ∧
    (flyWorld [("p", "a", none), ("q", "aa", none)]).runForAllPipelines
        (gpFunc (flyWorld [("p", "a", none), ("q", "aa", none)])) [⟨"p"⟩, ⟨"q"⟩]
      = .ok ["a", "aa"] ∧
    (flyWorld [("q", "aa", none), ("p", "a", none)]).runForAllPipelines
        (gpFunc (flyWorld [("q", "aa", none), ("p", "a", none)])) [⟨"q"⟩, ⟨"p"⟩]
      = .ok ["aa", "a"] ∧
    (sampleOutCommand.Run (flyWorld [("p", "a", none), ("q", "aa", none)])
        sampleOutRequest).2 = none ∧
    (sampleOutCommand.Run (flyWorld [("q", "aa", none), ("p", "a", none)])
        sampleOutRequest).2 = none ∧
    (sampleOutCommand.Run (flyWorld [("p", "a", none), ("q", "aa", none)])
        sampleOutRequest).1.Version.PipelinesChecksum
      = (sampleOutCommand.Run (flyWorld [("q", "aa", none), ("p", "a", none)])
        sampleOutRequest).1.Version.PipelinesChecksum := by
  refine ⟨by decide, by decide, by decide, by rfl, by rfl, by rfl, by rfl, ?_⟩
  have h1 := Out_run_eq sampleOutCommand (flyWorld [("p", "a", none), ("q", "aa", none)])
    sampleOutRequest [⟨"p", "p.yml", ["vars.yml"]⟩] [⟨"p"⟩, ⟨"q"⟩] ["a", "aa"]
    (by rfl) (by rfl) (by rfl) (by rfl) (by rfl)
  have h2 := Out_run_eq sampleOutCommand (flyWorld [("q", "aa", none), ("p", "a", none)])
    sampleOutRequest [⟨"p", "p.yml", ["vars.yml"]⟩] [⟨"q"⟩, ⟨"p"⟩] ["aa", "a"]
    (by rfl) (by rfl) (by rfl) (by rfl) (by rfl)
  rw [h1, h2]
  have hcat : String.join ["a", "aa"] = String.join ["aa", "a"] := by decide
  simp only [pipelinesChecksum, hcat]

/-- C4, as amended: two runs that reach the checksum with identical ordered
content sequences return the identical fingerprint string; and for any two
content sequences, in particular a sequence and a permutation of it, the two
fingerprints are equal exactly when the MD5 digests of the two separator-free
concatenations are equal, so a permutation changes the fingerprint if and only
if it changes the digest of the concatenation. -/
theorem write_fingerprint_deterministic_in_concatenation
    (c₁ c₂ : OutCommand) (w₁ w₂ : OutWorld) (input₁ input₂ : OutRequest)
    (specs₁ specs₂ : List PipelineSpec) (ps₁ ps₂ : List Pipeline) (cs₁ cs₂ : List String)
    (hlogin₁ : w₁.login input₁.Source.Target input₁.Source.Username input₁.Source.Password
      = none)
    (hload₁ : loadPipelines c₁ w₁ input₁ = .ok specs₁)
    (hset₁ : setPipelines c₁ w₁ 0 specs₁ = none)
    (hlist₁ : w₁.pipelines = .ok ps₁)
    (hrun₁ : w₁.runForAllPipelines (gpFunc w₁) ps₁ = .ok cs₁)
    (hlogin₂ : w₂.login input₂.Source.Target input₂.Source.Username input₂.Source.Password
      = none)
    (hload₂ : loadPipelines c₂ w₂ input₂ = .ok specs₂)
    (hset₂ : setPipelines c₂ w₂ 0 specs₂ = none)
    (hlist₂ : w₂.pipelines = .ok ps₂)
    (hrun₂ : w₂.runForAllPipelines (gpFunc w₂) ps₂ = .ok cs₂) :
    (cs₁ = cs₂ →
      (c₁.Run w₁ input₁).1.Version.PipelinesChecksum
        = (c₂.Run w₂ input₂).1.Version.PipelinesChecksum) ∧
    ((c₁.Run w₁ input₁).1.Version.PipelinesChecksum
        = (c₂.Run w₂ input₂).1.Version.PipelinesChecksum ↔
      MD5.sum (cs₁.map bytesOf).flatten = MD5.sum (cs₂.map bytesOf).flatten) ∧
    ((c₁.Run w₁ input₁).1.Version.PipelinesChecksum
        ≠ (c₂.Run w₂ input₂).1.Version.PipelinesChecksum ↔
      MD5.sum (cs₁.map bytesOf).flatten ≠ MD5.sum (cs₂.map bytesOf).flatten) := by
  rw [Out_run_eq c₁ w₁ input₁ specs₁ ps₁ cs₁ hlogin₁ hload₁ hset₁ hlist₁ hrun₁,
    Out_run_eq c₂ w₂ input₂ specs₂ ps₂ cs₂ hlogin₂ hload₂ hset₂ hlist₂ hrun₂]
  have hiff : pipelinesChecksum cs₁ = pipelinesChecksum cs₂ ↔
      MD5.sum (cs₁.map bytesOf).flatten = MD5.sum (cs₂.map bytesOf).flatten := by
    rw [pipelinesChecksum_eq_iff, bytesOf_join, bytesOf_join]
  refine ⟨?_, hiff, not_congr hiff⟩
  intro h; rw [h]

/-- Witness for C4 as amended: the listing a, b with contents X, Y and the
permuted listing b, a with contents Y, X return different fingerprints, because
the MD5 digests of `XY` and `YX` differ. -/
theorem write_fingerprint_deterministic_in_concatenation_witness :
    (sampleOutCommand.Run (flyWorld [("a", "X", none), ("b", "Y", none)])
        sampleOutRequest).1.Version.PipelinesChecksum
      ≠ (sampleOutCommand.Run (flyWorld [("b", "Y", none), ("a", "X", none)])
          sampleOutRequest).1.Version.PipelinesChecksum :=
  (write_fingerprint_deterministic_in_concatenation sampleOutCommand sampleOutCommand
      (flyWorld [("a", "X", none), ("b", "Y", none)])
      (flyWorld [("b", "Y", none), ("a", "X", none)])
      sampleOutRequest sampleOutRequest
      [⟨"p", "p.yml", ["vars.yml"]⟩] [⟨"p", "p.yml", ["vars.yml"]⟩]
      [⟨"a"⟩, ⟨"b"⟩] [⟨"b"⟩, ⟨"a"⟩] ["X", "Y"] ["Y", "X"]
      (by rfl) (by rfl) (by rfl) (by rfl) (by rfl)
      (by rfl) (by rfl) (by rfl) (by rfl) (by rfl)).2.2.mpr (by decide)

end Concourse
